import Mathlib

/-!
Verification of the PDF text/table extraction engine of
TaoyuanMetroPartnerShops (scripts/extract_shops.py and
scripts/generate_site.py), as a shallow embedding in Lean 4.

Modelling conventions:
* Python `str` values are modelled as `List Nat` of Unicode code points
  (`PyStr`); Python `bytes` values are `List Nat` of byte values.
  Code points rather than `Char` are used because Python strings can hold
  lone surrogates (e.g. the result of `chr` on a surrogate code point).
* Python functions that can raise an exception are embedded as
  `Option`-valued functions; `none` means the Python code raises.
* `\d` of the Python regular expressions is modelled as the ASCII digits
  0-9 (the only digits these documents produce); Python `int()` parsing is
  modelled without underscore separators and non-ASCII digits.
* The Big5 codec (`bytes.decode("big5", errors="ignore")`) lives in the
  Python runtime, not in this repository; it is threaded through as an
  explicit function parameter `big5`.
-/

set_option maxHeartbeats 1000000

namespace TMPS

/-- PyStr models a Python `str` as the list of its Unicode code points. -/
abbrev PyStr := List Nat

/-- Code points of a Lean string literal, used to write concrete `PyStr` values. -/
def pystr (s : String) : PyStr := s.data.map Char.toNat

/-- Python `str.isspace` / default `str.strip` whitespace set (code points). -/
def pyIsSpaceCp (c : Nat) : Bool :=
  c ∈ [9, 10, 11, 12, 13, 28, 29, 30, 31, 32, 133, 160, 5760,
       8192, 8193, 8194, 8195, 8196, 8197, 8198, 8199, 8200, 8201, 8202,
       8232, 8233, 8239, 8287, 12288]

/-- Python `s.strip()` with no arguments: drop whitespace from both ends. -/
def pyStrip (s : PyStr) : PyStr :=
  ((s.dropWhile pyIsSpaceCp).reverse.dropWhile pyIsSpaceCp).reverse

/-- Python `"".join` on a list of strings. -/
def joinL (l : List PyStr) : PyStr := l.flatten

/-- Python `" ".join` on a list of strings. -/
def joinSpace (l : List PyStr) : PyStr := joinL (l.intersperse [32])

/-- Helper for `natDigits`: fuel-indexed so the definition is structural and
evaluates inside the kernel. The fuel is never exhausted when it exceeds `n`. -/
def natDigitsAux : Nat → Nat → PyStr
  | 0, _ => []
  | fuel + 1, n => if n < 10 then [48 + n] else natDigitsAux fuel (n / 10) ++ [48 + n % 10]

/-- Decimal digits of a natural number, as the code points Python `str(n)` yields. -/
def natDigits (n : Nat) : PyStr := natDigitsAux (n + 1) n

theorem natDigitsAux_fuel_irrel (n : Nat) : ∀ f1 f2 : Nat, n < f1 → n < f2 →
    natDigitsAux f1 n = natDigitsAux f2 n := by
  induction n using Nat.strong_induction_on with
  | _ n ih =>
    intro f1 f2 h1 h2
    match f1, f2 with
    | a + 1, b + 1 =>
      simp only [natDigitsAux]
      by_cases h : n < 10
      · simp [h]
      · simp only [h, if_false]
        have hlt : n / 10 < n := Nat.div_lt_self (by omega) (by omega)
        rw [ih (n / 10) hlt a b (by omega) (by omega)]

theorem natDigits_eq (n : Nat) :
    natDigits n = if n < 10 then [48 + n] else natDigits (n / 10) ++ [48 + n % 10] := by
  rw [natDigits, natDigitsAux]
  by_cases h : n < 10
  · simp [h]
  · simp only [h, if_false]
    have hlt : n / 10 < n := Nat.div_lt_self (by omega) (by omega)
    rw [natDigits, natDigitsAux_fuel_irrel (n / 10) n (n / 10 + 1) hlt (by omega)]

/-- ASCII decimal digit test on a code point. -/
def isDigitCp (c : Nat) : Bool := 48 ≤ c && c ≤ 57

/-- Value of a list of decimal-digit code points, most significant first. -/
def digitsVal (l : PyStr) : Nat := l.foldl (fun a c => a * 10 + (c - 48)) 0

/-- Parse a nonempty all-digit code-point list, else `none`. -/
def parseDigits (l : PyStr) : Option Nat :=
  if l ≠ [] ∧ l.all isDigitCp then some (digitsVal l) else none

/-- Python `int(s)`: strip whitespace, optional sign, decimal digits. -/
def pyIntOfStr (s : PyStr) : Option Int :=
  match pyStrip s with
  | [] => none
  | c :: r =>
    if c = 43 then (parseDigits r).map Int.ofNat
    else if c = 45 then (parseDigits r).map (fun n => -(n : Int))
    else (parseDigits (c :: r)).map Int.ofNat

theorem natDigits_all_digits (n : Nat) : (natDigits n).all isDigitCp = true := by
  induction n using Nat.strong_induction_on with
  | _ n ih =>
    rw [natDigits_eq]
    by_cases h : n < 10
    · simp [h, isDigitCp]
      omega
    · simp only [h, if_false, List.all_append]
      rw [ih (n / 10) (Nat.div_lt_self (by omega) (by omega))]
      simp [isDigitCp]
      omega

theorem natDigits_ne_nil (n : Nat) : natDigits n ≠ [] := by
  rw [natDigits_eq]
  by_cases h : n < 10 <;> simp [h]

theorem digitsVal_append (l : PyStr) (d : Nat) :
    digitsVal (l ++ [d]) = digitsVal l * 10 + (d - 48) := by
  simp [digitsVal, List.foldl_append]

theorem digitsVal_natDigits (n : Nat) : digitsVal (natDigits n) = n := by
  induction n using Nat.strong_induction_on with
  | _ n ih =>
    rw [natDigits_eq]
    by_cases h : n < 10
    · simp [h, digitsVal]
    · simp only [h, if_false, digitsVal_append]
      rw [ih (n / 10) (Nat.div_lt_self (by omega) (by omega))]
      omega

theorem pyStrip_of_all_digits (l : PyStr) (h : l.all isDigitCp = true) :
    pyStrip l = l := by
  have hd : ∀ c ∈ l, pyIsSpaceCp c = false := by
    intro c hc
    have := List.all_eq_true.mp h c hc
    simp [isDigitCp] at this
    simp [pyIsSpaceCp]
    omega
  have h1 : l.dropWhile pyIsSpaceCp = l := by
    cases l with
    | nil => rfl
    | cons a t =>
      have ha : pyIsSpaceCp a = false := hd a (List.mem_cons_self a t)
      rw [List.dropWhile_cons, ha]
      simp
  have h2 : l.reverse.dropWhile pyIsSpaceCp = l.reverse := by
    cases hr : l.reverse with
    | nil => rfl
    | cons a t =>
      have ha : a ∈ l := by
        have : a ∈ l.reverse := by rw [hr]; simp
        simpa using this
      have ha' : pyIsSpaceCp a = false := hd a ha
      rw [List.dropWhile_cons, ha']
      simp
  rw [pyStrip, h1, h2, List.reverse_reverse]

theorem pyIntOfStr_natDigits (n : Nat) : pyIntOfStr (natDigits n) = some n := by
  have hall := natDigits_all_digits n
  have hne := natDigits_ne_nil n
  have hstrip := pyStrip_of_all_digits _ hall
  have hparse : parseDigits (natDigits n) = some n := by
    rw [parseDigits, if_pos ⟨hne, hall⟩, digitsVal_natDigits]
  cases hnd : natDigits n with
  | nil => exact absurd hnd hne
  | cons a t =>
    have ha : isDigitCp a = true :=
      List.all_eq_true.mp hall a (by rw [hnd]; simp)
    have ha' : 48 ≤ a ∧ a ≤ 57 := by simpa [isDigitCp] using ha
    rw [hnd] at hstrip hparse
    simp only [pyIntOfStr, hnd, hstrip]
    rw [if_neg (by omega), if_neg (by omega), hparse]
    rfl

/-! ## Literal-string decoding (`parse_literal` in scripts/extract_shops.py) -/

/-- Named two-character escapes of PDF literal strings: the `escapes` table of
`parse_literal` (`\n \r \t \b \f \( \) \\`), keyed by the byte after the
backslash. -/
def namedEscape (b : Nat) : Option Nat :=
  if b = 110 then some 10
  else if b = 114 then some 13
  else if b = 116 then some 9
  else if b = 98 then some 8
  else if b = 102 then some 12
  else if b = 40 then some 40
  else if b = 41 then some 41
  else if b = 92 then some 92
  else none

/-- Octal digit test (`48 <= byte <= 55` in the source). -/
def isOctCp (b : Nat) : Bool := 48 ≤ b && b ≤ 55

/-- Append one decoded byte to the front of the rest of the output.
`bytearray.append` raises `ValueError` when the value exceeds 255, which the
embedding models as `none`. -/
def appendByte (v : Nat) (rest : Option (List Nat)) : Option (List Nat) :=
  if v ≤ 255 then rest.map (v :: ·) else none

/-- Embedding of `parse_literal`: decode escape sequences inside a PDF literal
string body. A backslash followed by a named escape yields the mapped byte; a
backslash followed by 1-3 octal digits yields `int(digits, 8)` appended via
`bytearray.append` (which raises for values over 255); a backslash followed by
anything else, or a trailing backslash, is copied through; every other byte is
copied through. `none` models a raised exception. -/
def parseLitGo : Nat → List Nat → Option (List Nat)
  | 0, _ => none
  | fuel + 1, data =>
    match data with
    | [] => some []
    | b :: rest =>
      if b = 92 then
        match rest with
        | [] => some [92]
        | n1 :: rest2 =>
          match namedEscape n1 with
          | some v => (parseLitGo fuel rest2).map (v :: ·)
          | none =>
            if isOctCp n1 then
              match rest2 with
              | [] => appendByte (n1 - 48) (some [])
              | d2 :: rest3 =>
                if isOctCp d2 then
                  match rest3 with
                  | [] => appendByte ((n1 - 48) * 8 + (d2 - 48)) (some [])
                  | d3 :: rest4 =>
                    if isOctCp d3 then
                      appendByte ((n1 - 48) * 64 + (d2 - 48) * 8 + (d3 - 48))
                        (parseLitGo fuel rest4)
                    else
                      appendByte ((n1 - 48) * 8 + (d2 - 48)) (parseLitGo fuel rest3)
                else appendByte (n1 - 48) (parseLitGo fuel rest2)
            else (parseLitGo fuel rest).map (92 :: ·)
      else (parseLitGo fuel rest).map (b :: ·)

/-- Fuel never runs out when it exceeds the input length: each recursive step
consumes at least one input byte. -/
theorem parseLitGo_irrel (n : Nat) : ∀ (data : List Nat), data.length ≤ n →
    ∀ f1 f2 : Nat, data.length < f1 → data.length < f2 →
    parseLitGo f1 data = parseLitGo f2 data := by
  induction n with
  | zero =>
    intro data hlen f1 f2 h1 h2
    match data, f1, f2 with
    | [], a + 1, b + 1 => rfl
  | succ n ih =>
    intro data hlen f1 f2 h1 h2
    match data, f1, f2 with
    | [], a + 1, b + 1 => rfl
    | b0 :: rest, a + 1, b + 1 =>
      simp only [parseLitGo]
      simp only [List.length_cons] at hlen h1 h2
      by_cases hb : b0 = 92
      · simp only [hb, if_pos rfl, if_true]
        match rest with
        | [] => rfl
        | n1 :: rest2 =>
          dsimp only
          simp only [List.length_cons] at hlen h1 h2
          cases hne : namedEscape n1 with
          | some v =>
            simp only [hne]
            rw [ih rest2 (by omega) a b (by omega) (by omega)]
          | none =>
            simp only [hne]
            by_cases ho : isOctCp n1
            · simp only [ho, if_true]
              match rest2 with
              | [] => rfl
              | d2 :: rest3 =>
                dsimp only
                simp only [List.length_cons] at hlen h1 h2
                by_cases ho2 : isOctCp d2
                · simp only [ho2, if_true]
                  match rest3 with
                  | [] => rfl
                  | d3 :: rest4 =>
                    dsimp only
                    simp only [List.length_cons] at hlen h1 h2
                    by_cases ho3 : isOctCp d3
                    · simp only [ho3, if_true]
                      rw [ih rest4 (by omega) a b (by omega) (by omega)]
                    · simp only [ho3, Bool.false_eq_true, if_false]
                      rw [ih (d3 :: rest4) (by simp; omega) a b (by simp; omega)
                        (by simp; omega)]
                · simp only [ho2, Bool.false_eq_true, if_false]
                  rw [ih (d2 :: rest3) (by simp; omega) a b (by simp; omega)
                    (by simp; omega)]
            · simp only [ho, Bool.false_eq_true, if_false]
              rw [ih (n1 :: rest2) (by simp; omega) a b (by simp; omega) (by simp; omega)]
      · simp only [hb, if_false]
        rw [ih rest (by omega) a b (by omega) (by omega)]

/-- Embedding of `parse_literal` proper, with enough fuel for any input. -/
def parse_literal (data : List Nat) : Option (List Nat) :=
  parseLitGo (data.length + 1) data

theorem parseLitGo_succ_cons_ne (f b : Nat) (rest : List Nat) (hb : b ≠ 92) :
    parseLitGo (f + 1) (b :: rest) = (parseLitGo f rest).map (b :: ·) := by
  conv_lhs => simp only [parseLitGo]
  rw [if_neg hb]

theorem parseLitGo_succ_esc (f e v : Nat) (rest : List Nat)
    (he : namedEscape e = some v) :
    parseLitGo (f + 1) (92 :: e :: rest) = (parseLitGo f rest).map (v :: ·) := by
  conv_lhs => simp only [parseLitGo]
  simp only [if_true, he]

theorem parse_literal_cons_ne (b : Nat) (rest : List Nat) (hb : b ≠ 92) :
    parse_literal (b :: rest) = (parse_literal rest).map (b :: ·) := by
  rw [parse_literal, parse_literal]
  simp only [List.length_cons]
  rw [parseLitGo_succ_cons_ne (rest.length + 1) b rest hb]

theorem parse_literal_esc (e v : Nat) (rest : List Nat)
    (he : namedEscape e = some v) :
    parse_literal (92 :: e :: rest) = (parse_literal rest).map (v :: ·) := by
  rw [parse_literal, parse_literal]
  simp only [List.length_cons]
  rw [parseLitGo_succ_esc (rest.length + 1 + 1) e v rest he]
  rw [parseLitGo_irrel rest.length rest (le_refl _) (rest.length + 1 + 1)
    (rest.length + 1) (by omega) (by omega)]

/-- Decomposition of a literal-string body into plain non-backslash bytes and
named two-character escape sequences, counting the escapes. This is the
hypothesis of claim C7 ("containing only named two-character escape
sequences"). -/
inductive NamedOnly : List Nat → Nat → Prop
  | nil : NamedOnly [] 0
  | byte (b : Nat) (hb : b ≠ 92) {rest : List Nat} {k : Nat} :
      NamedOnly rest k → NamedOnly (b :: rest) k
  | esc (e : Nat) (he : (namedEscape e).isSome) {rest : List Nat} {k : Nat} :
      NamedOnly rest k → NamedOnly (92 :: e :: rest) (k + 1)

/-- Depth check for balanced unescaped parentheses (claim C7's side
condition, following the spec's words). -/
def parensBalanced : List Nat → Int → Bool
  | [], d => d == 0
  | 92 :: _ :: rest, d => parensBalanced rest d
  | 40 :: rest, d => parensBalanced rest (d + 1)
  | 41 :: rest, d => decide (0 < d) && parensBalanced rest (d - 1)
  | _ :: rest, d => parensBalanced rest d

theorem namedOnly_le_length {data : List Nat} {k : Nat} (h : NamedOnly data k) :
    k ≤ data.length := by
  induction h with
  | nil => simp
  | byte b hb _ ih => simp; omega
  | esc e he _ ih => simp; omega

theorem c7_aux {data : List Nat} {k : Nat} (h : NamedOnly data k) :
    (parse_literal data).map List.length = some (data.length - k) := by
  induction h with
  | nil => rfl
  | byte b hb h ih =>
    rename_i rest k
    rw [parse_literal_cons_ne b rest hb]
    rcases Option.map_eq_some'.mp ih with ⟨out, hout, hlen⟩
    rw [hout]
    have hk := namedOnly_le_length h
    simp [hlen]
    omega
  | esc e he h ih =>
    rename_i rest k
    rcases Option.isSome_iff_exists.mp he with ⟨v, hv⟩
    rw [parse_literal_esc e v rest hv]
    rcases Option.map_eq_some'.mp ih with ⟨out, hout, hlen⟩
    rw [hout]
    have hk := namedOnly_le_length h
    simp [hlen]
    omega

/-- C7: for every literal-string byte sequence containing only named
two-character escape sequences and balanced unescaped parentheses, the decoded
byte length equals the input length minus the number of two-character escape
sequences. -/
theorem c7_decoded_length (data : List Nat) (k : Nat)
    (h : NamedOnly data k) (_hbal : parensBalanced data 0 = true) :
    (parse_literal data).map List.length = some (data.length - k) :=
  c7_aux h

/-- Witness for C7 on the concrete literal body `a\n(b)` (bytes
97 92 110 40 98 41), which has one named escape and balanced parentheses. -/
theorem c7_decoded_length_witness :
    (parse_literal [97, 92, 110, 40, 98, 41]).map List.length = some (6 - 1) :=
  c7_decoded_length [97, 92, 110, 40, 98, 41] 1
    (.byte 97 (by omega) (.esc 110 (by decide)
      (.byte 40 (by omega) (.byte 98 (by omega) (.byte 41 (by omega) .nil)))))
    (by decide)

/-- C5: the source raises `ValueError` for a three-digit octal escape whose
value exceeds 255 (`\777` = 511 cannot be appended to a `bytearray`), while
`\377` = 255 does decode to exactly one byte. -/
theorem c5_octal_escape_overflow_raises :
    parse_literal [92, 55, 55, 55] = none ∧
      parse_literal [92, 51, 55, 55] = some [255] := by decide

/-! ## Byte-to-text decoding (`decode_bytes`, `_decode_hex` helpers) -/

/-- Validity of the second byte of a 3-byte UTF-8 sequence, per lead byte
(surrogates and overlong encodings are rejected, as Python's strict codec
does). -/
def utf8SecondOk3 (b c : Nat) : Bool :=
  if b = 224 then 160 ≤ c && c ≤ 191
  else if b = 237 then 128 ≤ c && c ≤ 159
  else 128 ≤ c && c ≤ 191

/-- Validity of the second byte of a 4-byte UTF-8 sequence, per lead byte. -/
def utf8SecondOk4 (b c : Nat) : Bool :=
  if b = 240 then 144 ≤ c && c ≤ 191
  else if b = 244 then 128 ≤ c && c ≤ 143
  else 128 ≤ c && c ≤ 191

/-- Strict UTF-8 decoding of a byte list to code points (`bytes.decode("utf-8")`
with default strict errors); `none` models `UnicodeDecodeError`. Fuel-indexed;
each step consumes at least one byte, so `length + 1` fuel never runs out. -/
def utf8Go : Nat → List Nat → Option (List Nat)
  | 0, _ => none
  | _ + 1, [] => some []
  | fuel + 1, b :: rest =>
    if b < 128 then (utf8Go fuel rest).map (b :: ·)
    else if 194 ≤ b ∧ b ≤ 223 then
      match rest with
      | c :: r2 =>
        if 128 ≤ c ∧ c ≤ 191 then (utf8Go fuel r2).map (((b - 192) * 64 + (c - 128)) :: ·)
        else none
      | [] => none
    else if 224 ≤ b ∧ b ≤ 239 then
      match rest with
      | c :: d :: r2 =>
        if utf8SecondOk3 b c ∧ (128 ≤ d ∧ d ≤ 191) then
          (utf8Go fuel r2).map (((b - 224) * 4096 + (c - 128) * 64 + (d - 128)) :: ·)
        else none
      | _ => none
    else if 240 ≤ b ∧ b ≤ 244 then
      match rest with
      | c :: d :: e :: r2 =>
        if utf8SecondOk4 b c ∧ (128 ≤ d ∧ d ≤ 191) ∧ (128 ≤ e ∧ e ≤ 191) then
          (utf8Go fuel r2).map
            (((b - 240) * 262144 + (c - 128) * 4096 + (d - 128) * 64 + (e - 128)) :: ·)
        else none
      | _ => none
    else none

/-- Strict UTF-8 decode with enough fuel for any input. -/
def utf8Decode (bs : List Nat) : Option (List Nat) := utf8Go (bs.length + 1) bs

/-- Strict UTF-16-BE decoding (`bytes.decode("utf-16-be")`): big-endian pairs,
surrogate pairs combined, lone surrogates and odd lengths rejected. -/
def utf16beGo : Nat → List Nat → Option (List Nat)
  | 0, _ => none
  | _ + 1, [] => some []
  | _ + 1, [_] => none
  | fuel + 1, b1 :: b2 :: rest =>
    if 55296 ≤ b1 * 256 + b2 ∧ b1 * 256 + b2 ≤ 56319 then
      match rest with
      | c1 :: c2 :: r2 =>
        if 56320 ≤ c1 * 256 + c2 ∧ c1 * 256 + c2 ≤ 57343 then
          (utf16beGo fuel r2).map
            ((65536 + (b1 * 256 + b2 - 55296) * 1024 + (c1 * 256 + c2 - 56320)) :: ·)
        else none
      | _ => none
    else if 56320 ≤ b1 * 256 + b2 ∧ b1 * 256 + b2 ≤ 57343 then none
    else (utf16beGo fuel rest).map ((b1 * 256 + b2) :: ·)

/-- Strict UTF-16-BE decode with enough fuel for any input. -/
def utf16beDecode (bs : List Nat) : Option (List Nat) := utf16beGo (bs.length + 1) bs

/-- A ToUnicode CMap: a Python dict from integer source code to text. -/
abbrev CMap := Int → Option PyStr

/-- The empty dict. -/
def emptyCMap : CMap := fun _ => none

/-- Python dict assignment `d[k] = v`. -/
def dictSet (d : CMap) (k : Int) (v : PyStr) : CMap :=
  fun q => if q = k then some v else d q

/-- Build a dict from a list of writes, first to last (later writes win). -/
def cmapOfEntries (entries : List (Int × PyStr)) : CMap :=
  entries.foldl (fun d p => dictSet d p.1 p.2) emptyCMap

/-- Python truthiness of `cmap.get(code)` in `decode_bytes`: a missing key and
an empty mapped string are both falsy. -/
def lookupNonempty (cmap : CMap) (code : Int) : Option PyStr :=
  match cmap code with
  | some m => if m = [] then none else some m
  | none => none

/-- The loop of `decode_bytes` over an even-length byte list: consume two bytes
at a time as a big-endian code, use the CMap text when truthy, else try UTF-8 on
the two raw bytes, else skip (`continue`). The one-byte case mirrors
`data[i:i+2]` on a final lone byte and is unreachable for even-length input. -/
def decodeChunks (cmap : CMap) : List Nat → List PyStr
  | [] => []
  | [b] =>
    match lookupNonempty cmap (Int.ofNat b) with
    | some m => [m]
    | none => match utf8Decode [b] with | some s => [s] | none => []
  | b1 :: b2 :: rest =>
    match lookupNonempty cmap (Int.ofNat (b1 * 256 + b2)) with
    | some m => m :: decodeChunks cmap rest
    | none =>
      match utf8Decode [b1, b2] with
      | some s => s :: decodeChunks cmap rest
      | none => decodeChunks cmap rest

/-- The final fallback of `decode_bytes`: whole-buffer UTF-8, then Big5 with
`errors="ignore"` (the Big5 codec is the runtime's, passed in as `big5`). -/
def utf8OrBig5 (big5 : List Nat → PyStr) (data : List Nat) : PyStr :=
  match utf8Decode data with
  | some s => s
  | none => big5 data

/-- Embedding of `decode_bytes`: even-length data is grouped into 2-byte codes
and decoded per code; if that yields no characters, or the length is odd, fall
back to whole-buffer UTF-8 then Big5-with-ignore. -/
def decode_bytes (big5 : List Nat → PyStr) (data : List Nat) (cmap : CMap) : PyStr :=
  if data.length % 2 = 0 then
    if decodeChunks cmap data ≠ [] then joinL (decodeChunks cmap data)
    else utf8OrBig5 big5 data
  else utf8OrBig5 big5 data

/-- The sequence of 2-byte big-endian codes `decode_bytes` looks up. -/
def twoByteCodes : List Nat → List Int
  | [] => []
  | [b] => [Int.ofNat b]
  | b1 :: b2 :: rest => Int.ofNat (b1 * 256 + b2) :: twoByteCodes rest

/-- A hex digit's value (`bytes.fromhex` alphabet). -/
def hexDigitVal (c : Nat) : Option Nat :=
  if 48 ≤ c ∧ c ≤ 57 then some (c - 48)
  else if 65 ≤ c ∧ c ≤ 70 then some (c - 55)
  else if 97 ≤ c ∧ c ≤ 102 then some (c - 87)
  else none

/-- `bytes.fromhex` on the characters matched by the operand pattern
`[0-9A-Fa-f]+` (no spaces can occur there): pairs of hex digits; an odd number
of digits raises `ValueError` (`none`). -/
def fromHexBytes : List Nat → Option (List Nat)
  | [] => some []
  | [_] => none
  | a :: b :: r =>
    match hexDigitVal a, hexDigitVal b, fromHexBytes r with
    | some x, some y, some rest => some ((x * 16 + y) :: rest)
    | _, _, _ => none

/-- The string-operand decoding step of `extract_raw_tokens`: a raw matched
operand (delimiters included) starting with `<` goes through
`bytes.fromhex` then `decode_bytes`; otherwise `parse_literal` then
`decode_bytes`. `none` models an uncaught exception. -/
def decode_string_operand (big5 : List Nat → PyStr) (cmap : CMap)
    (raw : List Nat) : Option PyStr :=
  match raw with
  | 60 :: _ => (fromHexBytes (raw.drop 1).dropLast).map (fun bs => decode_bytes big5 bs cmap)
  | _ => (parse_literal (raw.drop 1).dropLast).map (fun bs => decode_bytes big5 bs cmap)

/-- A Big5 stand-in for closed evaluations (never reached in them). -/
def big5Empty : List Nat → PyStr := fun _ => []

/-- C1: the decoding of a raw string operand can raise. The literal operand
`(\777)` (bytes 40 92 55 55 55 41) raises `ValueError` from
`bytearray.append(511)`, and the odd-digit hex operand `<4>` (bytes 60 52 62)
raises `ValueError` from `bytes.fromhex("4")`; neither degrades to a
best-effort or empty result. -/
theorem c1_operand_decoding_raises :
    decode_string_operand big5Empty emptyCMap [40, 92, 55, 55, 55, 41] = none ∧
      decode_string_operand big5Empty emptyCMap [60, 52, 62] = none := by decide

/-- Claim C6's described behaviour, modelled from the spec's words: when no
CMap key exceeds 0xFF, group the bytes into 1-byte codes and look each single
byte up in the CMap. Stated only to compare against `decode_bytes`. -/
def oneByteGroupDecode (data : List Nat) (cmap : CMap) : PyStr :=
  joinL (data.filterMap (fun b => cmap (Int.ofNat b)))

/-- A CMap whose every key is at most 0xFF: 0x41 ↦ "X", 0x42 ↦ "Y". -/
def cmapC6 : CMap := cmapOfEntries [(65, [88]), (66, [89])]

/-- C6 counterexample: with a CMap whose keys are all ≤ 0xFF, `decode_bytes`
still groups `b"AB"` into the single 2-byte code 0x4142 (yielding "AB" via the
UTF-8 fallback), not into the 1-byte codes 0x41, 0x42 the claim describes
(which would yield "XY"). -/
theorem c6_counterexample :
    ([(65, [88]), (66, [89])] : List (Int × PyStr)).all (fun p => decide (p.1 ≤ 255)) = true ∧
      decode_bytes big5Empty [65, 66] cmapC6 = [65, 66] ∧
      oneByteGroupDecode [65, 66] cmapC6 = [88, 89] ∧
      decode_bytes big5Empty [65, 66] cmapC6 ≠ oneByteGroupDecode [65, 66] cmapC6 := by
  decide

theorem decodeChunks_congr (n : Nat) : ∀ data : List Nat, data.length ≤ n →
    ∀ c1 c2 : CMap, (∀ code ∈ twoByteCodes data, c1 code = c2 code) →
    decodeChunks c1 data = decodeChunks c2 data := by
  induction n with
  | zero =>
    intro data hlen c1 c2 _
    match data with
    | [] => rfl
  | succ n ih =>
    intro data hlen c1 c2 hagree
    match data with
    | [] => rfl
    | [b] =>
      have hb : c1 (Int.ofNat b) = c2 (Int.ofNat b) := by
        apply hagree
        simp [twoByteCodes]
      simp only [decodeChunks, lookupNonempty, hb]
    | b1 :: b2 :: rest =>
      have hb : c1 (Int.ofNat (b1 * 256 + b2)) = c2 (Int.ofNat (b1 * 256 + b2)) := by
        apply hagree
        simp [twoByteCodes]
      have hrest : decodeChunks c1 rest = decodeChunks c2 rest := by
        apply ih rest (by simp at hlen; omega) c1 c2
        intro code hc
        apply hagree
        simp [twoByteCodes, hc]
      simp only [decodeChunks, lookupNonempty, hb, hrest]

/-- C6 amended: `decode_bytes` always groups even-length data into 2-byte
codes regardless of whether any CMap key exceeds 0xFF; its result depends on
the CMap only through the 2-byte codes of the data. -/
theorem c6_two_byte_grouping_key_independent
    (big5 : List Nat → PyStr) (data : List Nat) (c1 c2 : CMap)
    (heven : data.length % 2 = 0)
    (hagree : ∀ code ∈ twoByteCodes data, c1 code = c2 code) :
    decode_bytes big5 data c1 = decode_bytes big5 data c2 := by
  have h := decodeChunks_congr data.length data (le_refl _) c1 c2 hagree
  simp only [decode_bytes, heven, h]

/-- Witness for the amended C6 theorem: the CMaps `{0x4E2D: "中", 0x41: "A"}`
and `{0x4E2D: "中"}` agree on the unique 2-byte code 0x4E2D of `b"\x4e\x2d"`,
so the decoder's output agrees, although only one of them has a 1-byte key. -/
theorem c6_two_byte_grouping_key_independent_witness :
    decode_bytes big5Empty [78, 45] (cmapOfEntries [(20013, [20013]), (65, [65])]) =
      decode_bytes big5Empty [78, 45] (cmapOfEntries [(20013, [20013])]) :=
  c6_two_byte_grouping_key_independent big5Empty [78, 45]
    (cmapOfEntries [(20013, [20013]), (65, [65])])
    (cmapOfEntries [(20013, [20013])]) (by decide)
    (by intro code hc; simp [twoByteCodes] at hc; subst hc; decide)

/-! ## Header/footer cleanup (`cleanup_text`, `HEADER_FRAGMENT`) -/

/-- Prefix test: `startsWithL pat s` is true when `s` begins with `pat`. -/
def startsWithL : PyStr → PyStr → Bool
  | [], _ => true
  | _ :: _, [] => false
  | p :: ps, c :: cs => p == c && startsWithL ps cs

/-- Substring test, Python's `pat in s`. -/
def containsSub (pat : PyStr) : PyStr → Bool
  | [] => startsWithL pat []
  | c :: t => startsWithL pat (c :: t) || containsSub pat t

/-- Python `s.replace(pat, "")` for nonempty `pat`: remove all non-overlapping
occurrences left to right. Fuel-indexed; each step consumes at least one
character, so `length + 1` fuel never runs out. -/
def removeAllGo (pat : PyStr) : Nat → PyStr → PyStr
  | _, [] => []
  | 0, s => s
  | fuel + 1, c :: t =>
    if startsWithL pat (c :: t) then removeAllGo pat fuel ((c :: t).drop pat.length)
    else c :: removeAllGo pat fuel t

/-- Python `s.replace(pat, "")` (replacing with the empty pattern is the
identity when the replacement is also empty). -/
def removeAll (pat s : PyStr) : PyStr :=
  if pat = [] then s else removeAllGo pat (s.length + 1) s

/-- Match the regex `第\d+頁，共\d+頁` at the start of `s` and return the rest
of the input after the match. The digit runs are greedy; since `頁` is not a
digit, the maximal run is the only candidate. -/
def matchPage (s : PyStr) : Option PyStr :=
  match s with
  | 31532 :: r1 =>
    match r1 with
    | c1 :: r2 =>
      if isDigitCp c1 then
        match r2.dropWhile isDigitCp with
        | 38913 :: 65292 :: 20849 :: r3 =>
          match r3 with
          | c2 :: r4 =>
            if isDigitCp c2 then
              match r4.dropWhile isDigitCp with
              | 38913 :: r5 => some r5
              | _ => none
            else none
          | [] => none
        | _ => none
      else none
    | [] => none
  | _ => none

/-- `re.sub(r"第\d+頁，共\d+頁", "", s)`: scan left to right, removing each
leftmost match and continuing after it. -/
def pageSubGo : Nat → PyStr → PyStr
  | 0, s => s
  | fuel + 1, s =>
    match matchPage s with
    | some r => pageSubGo fuel r
    | none => match s with | [] => [] | c :: t => c :: pageSubGo fuel t

/-- Page-number removal with enough fuel for any input. -/
def pageSub (s : PyStr) : PyStr := pageSubGo (s.length + 1) s

/-- The `HEADER_FRAGMENT` set literal of the source, in its written order.
Python iterates a `str` set in a hash-dependent order that can differ between
processes, so `cleanup_text` is parameterized by an iteration order below. -/
def headerFragments : List PyStr :=
  [pystr r"桃園市政府員工卡特", pystr r"約商店名單及", pystr r"優惠措施一覽",
   pystr r"表", pystr r"備註：詳", pystr r"細優惠內容請", pystr r"洽各特約商店",
   pystr r"頁，共", pystr r"頁"]

/-- Embedding of `cleanup_text`: remove each header fragment (in the given set
iteration order), remove the `第N頁，共M頁` pattern, then strip. -/
def cleanup_text (ord : List PyStr) (v : PyStr) : PyStr :=
  pyStrip (pageSub (ord.foldl (fun acc f => removeAll f acc) v))

/-- An alternative iteration order of the same `HEADER_FRAGMENT` set:
`頁，共` and `優惠措施一覽` first. -/
def fragsOrdB : List PyStr :=
  [pystr r"頁，共", pystr r"優惠措施一覽", pystr r"桃園市政府員工卡特",
   pystr r"約商店名單及", pystr r"表", pystr r"備註：詳", pystr r"細優惠內容請",
   pystr r"洽各特約商店", pystr r"頁"]

/-- C4 counterexample: on the input `優惠措施一頁，共覽`, iterating the
fragment set in source order leaves `優惠措施一覽` (the `頁，共` removal
creates the fragment only after it was checked), while the alternative order
removes everything — so `cleanup_text` is not a function of its input string
alone, and two process runs with different set hash seeds can produce
different record lists from byte-identical input. -/
theorem c4_counterexample :
    headerFragments.Perm fragsOrdB ∧
      cleanup_text headerFragments (pystr r"優惠措施一頁，共覽") = pystr r"優惠措施一覽" ∧
      cleanup_text fragsOrdB (pystr r"優惠措施一頁，共覽") = [] ∧
      cleanup_text headerFragments (pystr r"優惠措施一頁，共覽") ≠
        cleanup_text fragsOrdB (pystr r"優惠措施一頁，共覽") := by decide

theorem containsSub_nil_pat (s : PyStr) : containsSub [] s = true := by
  cases s <;> simp [containsSub, startsWithL]

theorem removeAllGo_no_occur (pat : PyStr) : ∀ fuel s,
    containsSub pat s = false → removeAllGo pat fuel s = s := by
  intro fuel
  induction fuel with
  | zero => intro s _; cases s <;> rfl
  | succ fuel ih =>
    intro s hno
    cases s with
    | nil => rfl
    | cons c t =>
      simp only [containsSub, Bool.or_eq_false_iff] at hno
      rw [removeAllGo, if_neg (by simp [hno.1])]
      rw [ih t hno.2]

theorem removeAll_no_occur (pat s : PyStr) (hno : containsSub pat s = false) :
    removeAll pat s = s := by
  by_cases hp : pat = []
  · subst hp
    rw [containsSub_nil_pat] at hno
    exact absurd hno (by simp)
  · rw [removeAll, if_neg hp, removeAllGo_no_occur pat (s.length + 1) s hno]

theorem fold_removeAll_no_occur : ∀ (ord : List PyStr) (v : PyStr),
    (∀ f ∈ ord, containsSub f v = false) →
    ord.foldl (fun acc f => removeAll f acc) v = v := by
  intro ord
  induction ord with
  | nil => intro v _; rfl
  | cons f rest ih =>
    intro v hno
    simp only [List.foldl_cons]
    rw [removeAll_no_occur f v (hno f (by simp))]
    exact ih v (fun g hg => hno g (by simp [hg]))

/-- C4 amended: the pipeline's output is a deterministic function of the input
together with the `HEADER_FRAGMENT` iteration order, but not of the input
alone; on text containing no header fragment the cleanup is order-independent
(it reduces to page-number removal plus strip), so runs only differ when
fragment removals interact. -/
theorem c4_cleanup_order_independent_without_fragments
    (ord : List PyStr) (v : PyStr)
    (hperm : ord.Perm headerFragments)
    (hno : ∀ f ∈ headerFragments, containsSub f v = false) :
    cleanup_text ord v = pyStrip (pageSub v) := by
  rw [cleanup_text, fold_removeAll_no_occur ord v
    (fun f hf => hno f (hperm.mem_iff.mp hf))]

/-- Witness for the amended C4 theorem at the fragment-free input `abc123`
and the alternative iteration order. -/
theorem c4_cleanup_order_independent_witness :
    cleanup_text fragsOrdB (pystr r"abc123") = pyStrip (pageSub (pystr r"abc123")) :=
  c4_cleanup_order_independent_without_fragments fragsOrdB (pystr r"abc123")
    (by decide) (by decide)

/-! ## Sequential table reconstruction (`locate_entries`, `slice_entries`) -/

/-- The `CATEGORIES` set literal, as a list (only membership is used). -/
def CATEGORIES : List PyStr :=
  [pystr r"生活", pystr r"休閒", pystr r"藝文", pystr r"教育", pystr r"醫療",
   pystr r"交通", pystr r"旅宿", pystr r"購物", pystr r"美容", pystr r"服務",
   pystr r"保健", pystr r"其他"]

/-- The `ADDRESS_BREAK` marker list of the source. -/
def ADDRESS_BREAK : List PyStr :=
  [pystr r"優惠", pystr r"折", pystr r"享", pystr r"憑", pystr r"送", pystr r"贈",
   pystr r"消費", pystr r"即可", pystr r"持", pystr r"出示", pystr r"折扣",
   pystr r"折抵", pystr r"使用", pystr r"需", pystr r"本優惠", pystr r"折價",
   pystr r"任選", pystr r"至", pystr r"於", pystr r"內含"]

/-- Discard one final newline, the positions where `$` can match in
`re.match(r".*[市縣]$", t)`. -/
def cityCore (t : PyStr) : PyStr :=
  if t.getLast? = some 10 then t.dropLast else t

/-- `bool(re.match(r".*[市縣]$", t))` of `is_city`. In that regex `.` matches
anything but a newline and `$` matches at the end or just before one final
newline, so a match from position 0 exists exactly when, after discarding one
final newline if present, the text is nonempty, ends in `市` (24066) or `縣`
(32291), and has no newline before that last character. -/
def is_city (t : PyStr) : Bool :=
  match (cityCore t).getLast? with
  | some c => (c == 24066 || c == 32291) && !(decide (10 ∈ (cityCore t).dropLast))
  | none => false

/-- `re.fullmatch(r"[一-鿿]{1,4}", t)`: one to four CJK characters. -/
def isCJK14 (t : PyStr) : Bool :=
  decide (1 ≤ t.length) && decide (t.length ≤ 4) &&
    t.all (fun c => 19968 ≤ c && c ≤ 40959)

/-- The scan `for i in range(cursor, len(tokens) - 2)` of `locate_entries`,
walking the 3-token windows of the suffix starting at `cursor`: the boundary
is the first `i` whose token equals the expected id string, followed by a
category token and a 1-4 CJK run. -/
def scanBoundary (target : PyStr) : List PyStr → Nat → Option Nat
  | t0 :: t1 :: t2 :: rest, i =>
    if t0 = target ∧ t1 ∈ CATEGORIES ∧ isCJK14 t2 then some i
    else scanBoundary target (t1 :: t2 :: rest) (i + 1)
  | _, _ => none

/-- The boundary search of `locate_entries` from a cursor. -/
def findBoundary (tokens : List PyStr) (target : PyStr) (cursor : Nat) : Option Nat :=
  scanBoundary target (tokens.drop cursor) cursor

/-- The `while True` loop of `locate_entries`: repeatedly find the boundary of
the next expected id. Fuel-indexed; the cursor strictly increases and the scan
needs `cursor < len - 2`, so `length + 1` fuel never runs out. -/
def locateLoop (tokens : List PyStr) : Nat → Nat → Nat → List Nat
  | 0, _, _ => []
  | fuel + 1, cursor, currentId =>
    match findBoundary tokens (natDigits currentId) cursor with
    | none => []
    | some f => f :: locateLoop tokens fuel (f + 1) (currentId + 1)

/-- Embedding of `locate_entries`. -/
def locate_entries (tokens : List PyStr) : List Nat :=
  locateLoop tokens (tokens.length + 1) 0 1

/-- `starts.append(len(tokens)); zip(starts[:-1], starts[1:])` of
`slice_entries`. -/
def spanPairs : List Nat → Nat → List (Nat × Nat)
  | [], _ => []
  | [a], n => [(a, n)]
  | a :: b :: rest, n => (a, b) :: spanPairs (b :: rest) n

/-- Python slice `l[a:b]` (for `0 ≤ a ≤ b ≤ len l`, the shapes produced here). -/
def pySlice (l : List PyStr) (a b : Nat) : List PyStr := (l.drop a).take (b - a)

/-- The `Shop` dataclass of the source. -/
structure Shop where
  id : Int
  category_main : PyStr
  category_sub : PyStr
  name : PyStr
  phone : PyStr
  city : PyStr
  district : PyStr
  address : PyStr
  offers : PyStr
deriving DecidableEq

/-- A backtracking matcher: maps an input suffix to the possible remaining
suffixes after a match, in the regex engine's preference order. -/
abbrev Matcher := PyStr → List PyStr

/-- Match one literal character. -/
def mChar (c : Nat) : Matcher := fun s =>
  match s with
  | x :: r => if x = c then [r] else []
  | [] => []

/-- Match one `\d` (ASCII digit, see the modelling note). -/
def mDigit : Matcher := fun s =>
  match s with
  | x :: r => if isDigitCp x then [r] else []
  | [] => []

/-- Sequencing of matchers. -/
def mSeq (m1 m2 : Matcher) : Matcher := fun s => (m1 s).flatMap m2

/-- Greedy `?`: prefer consuming. -/
def mOpt (m : Matcher) : Matcher := fun s => m s ++ [s]

/-- Alternation: prefer the left branch. -/
def mAlt (m1 m2 : Matcher) : Matcher := fun s => m1 s ++ m2 s

/-- Greedy `{lo,hi}` repetition: prefer more repetitions. -/
def mRep (m : Matcher) : Nat → Nat → Matcher
  | 0, 0 => fun s => [s]
  | 0, hi + 1 => fun s => mSeq m (mRep m 0 hi) s ++ [s]
  | lo + 1, hi + 1 => mSeq m (mRep m lo hi)
  | _ + 1, 0 => fun _ => []

/-- The phone pattern `\(?0\d{1,2}\)?\d{3,4}-?\d{3,4}|09\d{2}-?\d{6}` of
`slice_entries`, compiled connective by connective (`(` = 40, `)` = 41,
`-` = 45, `0` = 48, `9` = 57). -/
def phoneRe : Matcher :=
  mAlt
    (mSeq (mOpt (mChar 40)) (mSeq (mChar 48) (mSeq (mRep mDigit 1 2)
      (mSeq (mOpt (mChar 41)) (mSeq (mRep mDigit 3 4)
      (mSeq (mOpt (mChar 45)) (mRep mDigit 3 4)))))))
    (mSeq (mChar 48) (mSeq (mChar 57) (mSeq (mRep mDigit 2 2)
      (mSeq (mOpt (mChar 45)) (mRep mDigit 6 6)))))

/-- `re.search` for the phone pattern: first matching start position wins,
yielding `group(0)` (the consumed part). -/
def phoneSearchGo : PyStr → Option PyStr
  | [] => none
  | c :: t =>
    match phoneRe (c :: t) with
    | r :: _ => some ((c :: t).take ((c :: t).length - r.length))
    | [] => phoneSearchGo t

/-- `re.search(phone_pattern, s)` (the pattern cannot match the empty string,
so the empty input yields no match, as in the source). -/
def phoneSearch (s : PyStr) : Option PyStr := phoneSearchGo s

/-- Python `s.replace(pat, "", 1)`: drop the first occurrence of `pat`. -/
def replaceFirst (pat : PyStr) : PyStr → PyStr
  | [] => []
  | c :: t =>
    if startsWithL pat (c :: t) then (c :: t).drop pat.length
    else c :: replaceFirst pat t

/-- `any(marker in token for marker in ADDRESS_BREAK)`. -/
def hasBreakMarker (t : PyStr) : Bool := ADDRESS_BREAK.any (fun m => containsSub m t)

/-- Processing of one record span in `slice_entries`: id, main and sub
category from the first three tokens, then the name/phone run up to the first
city token (the span is dropped when there is none), then district, then
address up to the first break-marker token, then offers. `none` models an
uncaught exception (a span shorter than 3 tokens or an unparsable id; spans
produced by `locate_entries` never trigger it), `some none` a dropped span,
`some (some shop)` an emitted record. -/
def sliceOne (ord : List PyStr) (seg : List PyStr) : Option (Option Shop) :=
  match seg with
  | s0 :: s1 :: s2 :: rest =>
    match pyIntOfStr s0 with
    | none => none
    | some shopId =>
      match rest.dropWhile (fun t => !is_city t) with
      | [] => some none
      | city :: rest3 =>
        let nps := joinL (rest.takeWhile (fun t => !is_city t))
        let phone := (phoneSearch nps).getD []
        let name := if phone ≠ [] then replaceFirst phone nps else nps
        some (some {
          id := shopId
          category_main := s1
          category_sub := s2
          name := pyStrip name
          phone := phone
          city := pyStrip city
          district := pyStrip (rest3.headD [])
          address := cleanup_text ord (joinL (rest3.tail.takeWhile (fun t => !hasBreakMarker t)))
          offers := cleanup_text ord (joinL (rest3.tail.dropWhile (fun t => !hasBreakMarker t))) })
  | _ => none

/-- Collect the span results in order; an exception anywhere aborts the run
(`none`), dropped spans contribute nothing. -/
def collectShops : List (Option (Option Shop)) → Option (List Shop)
  | [] => some []
  | none :: _ => none
  | some none :: rest => collectShops rest
  | some (some s) :: rest => (collectShops rest).map (s :: ·)

/-- Embedding of `slice_entries`, parameterized like `cleanup_text` by the
`HEADER_FRAGMENT` iteration order. -/
def slice_entries (ord : List PyStr) (tokens : List PyStr) : Option (List Shop) :=
  collectShops ((spanPairs (locate_entries tokens) tokens.length).map
    (fun p => sliceOne ord (pySlice tokens p.1 p.2)))

/-! ## Facts about digits, categories, city tokens -/

theorem categories_have_non_digit :
    CATEGORIES.all (fun s => s.any (fun c => !isDigitCp c)) = true := by decide

theorem natDigits_not_in_categories (n : Nat) : natDigits n ∉ CATEGORIES := by
  intro hmem
  have hall := natDigits_all_digits n
  have h2 := List.all_eq_true.mp categories_have_non_digit _ hmem
  rcases List.any_eq_true.mp h2 with ⟨c, hc, hcd⟩
  have hd := List.all_eq_true.mp hall c hc
  simp [hd] at hcd

theorem natDigits_not_CJK (n : Nat) : isCJK14 (natDigits n) = false := by
  rw [Bool.eq_false_iff]
  intro hc
  cases hnd : natDigits n with
  | nil => exact natDigits_ne_nil n hnd
  | cons a t =>
    rw [hnd] at hc
    simp only [isCJK14, Bool.and_eq_true, decide_eq_true_eq, List.all_eq_true] at hc
    have ha := List.all_eq_true.mp (natDigits_all_digits n) a (by rw [hnd]; simp)
    have h1 := hc.2 a (by simp)
    simp only [isDigitCp, Bool.and_eq_true, decide_eq_true_eq] at ha h1
    omega

theorem dropWhile_eq_cons_facts {α : Type} (p : α → Bool) :
    ∀ (l : List α) (a : α) (t : List α),
    l.dropWhile p = a :: t → p a = false ∧ a ∈ l := by
  intro l
  induction l with
  | nil => intro a t h; simp [List.dropWhile] at h
  | cons x l' ih =>
    intro a t h
    rw [List.dropWhile_cons] at h
    by_cases hx : p x = true
    · rw [if_pos hx] at h
      rcases ih a t h with ⟨h1, h2⟩
      exact ⟨h1, by simp [h2]⟩
    · rw [if_neg hx] at h
      injection h with h1 h2
      subst h1
      exact ⟨by simpa using hx, by simp⟩

theorem dropWhile_append_keep {p : Nat → Bool} (c : Nat) (hc : p c = false) :
    ∀ (l s : List Nat), (l ++ c :: s).dropWhile p = l.dropWhile p ++ c :: s := by
  intro l
  induction l with
  | nil => intro s; simp [List.dropWhile_cons, hc]
  | cons x l' ih =>
    intro s
    simp only [List.cons_append, List.dropWhile_cons]
    by_cases hx : p x = true
    · rw [if_pos hx, if_pos hx, ih]
    · rw [if_neg hx, if_neg hx]
      simp

/-- Stripping a string of the shape `p ++ [c]` or `p ++ [c, 10]` with a
non-whitespace `c` keeps `c` last and only trims within `p` and the final
newline. -/
theorem pyStrip_city_shape (p : PyStr) (c : Nat) (hc : pyIsSpaceCp c = false)
    (s : PyStr) (hs : s = [] ∨ s = [10]) :
    pyStrip (p ++ c :: s) = p.dropWhile pyIsSpaceCp ++ [c] := by
  rw [pyStrip, dropWhile_append_keep c hc]
  have h10 : pyIsSpaceCp 10 = true := by decide
  rcases hs with hs | hs <;> subst hs
  · rw [List.reverse_append]
    simp only [List.reverse_cons, List.reverse_nil, List.nil_append, List.cons_append]
    rw [List.dropWhile_cons, hc]
    simp
  · rw [List.reverse_append]
    simp only [List.reverse_cons, List.reverse_nil, List.nil_append, List.cons_append]
    rw [List.dropWhile_cons, h10]
    simp only [if_true]
    rw [List.dropWhile_cons, hc]
    simp

/-! ## Structure of the located record boundaries -/

theorem scanBoundary_some (target : PyStr) :
    ∀ (l : List PyStr) (i f : Nat), scanBoundary target l i = some f →
    i ≤ f ∧ ∃ t1 t2 rest, l.drop (f - i) = target :: t1 :: t2 :: rest ∧
      t1 ∈ CATEGORIES ∧ isCJK14 t2 = true := by
  intro l
  induction l with
  | nil => intro i f h; simp [scanBoundary] at h
  | cons t0 l' ih =>
    intro i f h
    match l' with
    | [] => simp [scanBoundary] at h
    | [x] => simp [scanBoundary] at h
    | t1 :: t2 :: rest =>
      simp only [scanBoundary] at h
      by_cases hc : t0 = target ∧ t1 ∈ CATEGORIES ∧ isCJK14 t2 = true
      · rw [if_pos hc] at h
        injection h with hf
        subst hf
        exact ⟨le_refl i, t1, t2, rest, by simp [hc.1], hc.2.1, hc.2.2⟩
      · rw [if_neg hc] at h
        rcases ih (i + 1) f h with ⟨h1, u1, u2, urest, h2, h3, h4⟩
        refine ⟨by omega, u1, u2, urest, ?_, h3, h4⟩
        have hfi : f - i = (f - (i + 1)) + 1 := by omega
        rw [hfi, List.drop_succ_cons]
        exact h2

theorem findBoundary_some (tokens : List PyStr) (target : PyStr) (cursor f : Nat)
    (h : findBoundary tokens target cursor = some f) :
    cursor ≤ f ∧ ∃ t1 t2 rest, tokens.drop f = target :: t1 :: t2 :: rest ∧
      t1 ∈ CATEGORIES ∧ isCJK14 t2 = true := by
  rw [findBoundary] at h
  rcases scanBoundary_some target (tokens.drop cursor) cursor f h with
    ⟨h1, t1, t2, rest, h2, h3, h4⟩
  rw [List.drop_drop] at h2
  have hfc : cursor + (f - cursor) = f := by omega
  rw [hfc] at h2
  exact ⟨h1, t1, t2, rest, h2, h3, h4⟩

theorem drop_succ_of_drop_cons {tokens : List PyStr} {f : Nat} {a : PyStr}
    {l : List PyStr} (h : tokens.drop f = a :: l) : tokens.drop (f + 1) = l := by
  have h1 := List.drop_drop 1 f tokens
  rw [h] at h1
  simpa using h1.symm

theorem locateLoop_spec (tokens : List PyStr) : ∀ (fuel cursor id k v : Nat),
    (locateLoop tokens fuel cursor id)[k]? = some v →
    cursor ≤ v ∧
    (∃ t1 t2 rest, tokens.drop v = natDigits (id + k) :: t1 :: t2 :: rest ∧
      t1 ∈ CATEGORIES ∧ isCJK14 t2 = true) ∧
    (∀ v', (locateLoop tokens fuel cursor id)[k + 1]? = some v' → v + 3 ≤ v') := by
  intro fuel
  induction fuel with
  | zero =>
    intro cursor id k v h
    simp [locateLoop] at h
  | succ fuel ih =>
    intro cursor id k v h
    rcases hfb : findBoundary tokens (natDigits id) cursor with _ | f
    · rw [locateLoop, hfb] at h
      simp at h
    · rcases findBoundary_some tokens (natDigits id) cursor f hfb with
        ⟨hcf, t1, t2, rest, hdrop, hcat, hcjk⟩
      have hunfold : locateLoop tokens (fuel + 1) cursor id =
          f :: locateLoop tokens fuel (f + 1) (id + 1) := by
        rw [locateLoop, hfb]
      rw [hunfold] at h ⊢
      cases k with
      | zero =>
        simp only [List.getElem?_cons_zero, Option.some.injEq] at h
        subst h
        refine ⟨hcf, ⟨t1, t2, rest, by simpa using hdrop, hcat, hcjk⟩, ?_⟩
        intro v' h'
        simp only [List.getElem?_cons_succ] at h'
        rcases ih (f + 1) (id + 1) 0 v' h' with ⟨hgeb, ⟨u1, u2, urest, hd2, hc2, hj2⟩, _⟩
        rw [Nat.add_zero] at hd2
        by_contra hlt
        have hb12 : v' = f + 1 ∨ v' = f + 2 := by omega
        rcases hb12 with hb | hb
        · rw [hb, drop_succ_of_drop_cons hdrop] at hd2
          injection hd2 with he _
          exact natDigits_not_in_categories (id + 1) (he ▸ hcat)
        · have hdf1 : tokens.drop (f + 1) = t1 :: t2 :: rest := drop_succ_of_drop_cons hdrop
          have hdf2 : tokens.drop (f + 2) = t2 :: rest := drop_succ_of_drop_cons hdf1
          rw [hb, hdf2] at hd2
          injection hd2 with he _
          rw [he] at hcjk
          rw [natDigits_not_CJK (id + 1)] at hcjk
          exact Bool.false_ne_true hcjk
      | succ k' =>
        simp only [List.getElem?_cons_succ] at h
        rcases ih (f + 1) (id + 1) k' v h with ⟨hge, ⟨u1, u2, urest, hd2, hc2, hj2⟩, hgap⟩
        refine ⟨by omega, ?_, ?_⟩
        · refine ⟨u1, u2, urest, ?_, hc2, hj2⟩
          have harith : id + 1 + k' = id + (k' + 1) := by omega
          rw [harith] at hd2
          exact hd2
        · intro v' h'
          simp only [List.getElem?_cons_succ] at h'
          exact hgap v' h'

/-! ## City tokens survive stripping -/

theorem eq_dropLast_concat_of_getLast {l : List Nat} {c : Nat}
    (h : l.getLast? = some c) : l = l.dropLast ++ [c] := by
  cases hr : l.reverse with
  | nil =>
    have : l = [] := by simpa using congrArg List.reverse hr
    subst this
    simp at h
  | cons c' t =>
    have hl : l = t.reverse ++ [c'] := by
      have := congrArg List.reverse hr
      simpa using this
    have hc' : c' = c := by
      rw [hl, List.getLast?_concat] at h
      exact Option.some.inj h
    subst hc'
    rw [hl, List.dropLast_concat]

theorem is_city_decomp (t : PyStr) (h : is_city t = true) :
    ∃ p c s, t = p ++ c :: s ∧ (c = 24066 ∨ c = 32291) ∧ (10 : Nat) ∉ p ∧
      (s = [] ∨ s = [10]) := by
  cases hlast : (cityCore t).getLast? with
  | none => simp [is_city, hlast] at h
  | some c =>
    simp only [is_city, hlast, Bool.and_eq_true, Bool.or_eq_true, beq_iff_eq,
      Bool.not_eq_true', decide_eq_false_iff_not] at h
    have hu : cityCore t = (cityCore t).dropLast ++ [c] :=
      eq_dropLast_concat_of_getLast hlast
    by_cases h10 : t.getLast? = some (10 : Nat)
    · have hcore : cityCore t = t.dropLast := by rw [cityCore, if_pos h10]
      have ht : t = t.dropLast ++ [10] := eq_dropLast_concat_of_getLast h10
      refine ⟨(cityCore t).dropLast, c, [10], ?_, h.1, h.2, Or.inr rfl⟩
      conv_lhs => rw [ht]
      rw [← hcore, hu]
      simp
    · have hcore : cityCore t = t := by rw [cityCore, if_neg h10]
      refine ⟨(cityCore t).dropLast, c, [], ?_, h.1, h.2, Or.inl rfl⟩
      conv_lhs => rw [← hcore, hu]

theorem is_city_concat (p : PyStr) (c : Nat) (hc : c = 24066 ∨ c = 32291)
    (hp : (10 : Nat) ∉ p) : is_city (p ++ [c]) = true := by
  have h1 : (p ++ [c]).getLast? = some c := List.getLast?_concat p
  have hc10 : c ≠ 10 := by rcases hc with hc | hc <;> omega
  have hcore : cityCore (p ++ [c]) = p ++ [c] := by
    rw [cityCore, if_neg]
    rw [h1]
    simp [hc10]
  simp only [is_city, hcore, h1, List.dropLast_concat, Bool.and_eq_true,
    Bool.or_eq_true, beq_iff_eq, Bool.not_eq_true', decide_eq_false_iff_not]
  exact ⟨hc, hp⟩

theorem is_city_strip (t : PyStr) (h : is_city t = true) :
    is_city (pyStrip t) = true ∧ pyStrip t ≠ [] := by
  rcases is_city_decomp t h with ⟨p, c, s, ht, hc, hp, hs⟩
  have hcsp : pyIsSpaceCp c = false := by rcases hc with hc | hc <;> subst hc <;> decide
  subst ht
  rw [pyStrip_city_shape p c hcsp s hs]
  constructor
  · apply is_city_concat _ _ hc
    intro hmem
    exact hp ((List.dropWhile_sublist pyIsSpaceCp).subset hmem)
  · simp

/-! ## Spans and the processing of a single span -/

theorem spanPairs_length : ∀ (starts : List Nat) (n : Nat),
    (spanPairs starts n).length = starts.length := by
  intro starts
  induction starts with
  | nil => intro n; rfl
  | cons a t ih =>
    intro n
    match t with
    | [] => rfl
    | b :: rest =>
      rw [spanPairs]
      simpa using ih n

theorem spanPairs_get? : ∀ (starts : List Nat) (n k : Nat) (p : Nat × Nat),
    (spanPairs starts n)[k]? = some p →
    starts[k]? = some p.1 ∧
      ((∃ v, starts[k + 1]? = some v ∧ p.2 = v) ∨ (starts[k + 1]? = none ∧ p.2 = n)) := by
  intro starts
  induction starts with
  | nil => intro n k p h; simp [spanPairs] at h
  | cons a t ih =>
    intro n k p h
    match t with
    | [] =>
      match k with
      | 0 =>
        simp only [spanPairs, List.getElem?_cons_zero, Option.some.injEq] at h
        subst h
        simp
      | k' + 1 => simp [spanPairs] at h
    | b :: rest =>
      rw [spanPairs] at h
      match k with
      | 0 =>
        simp only [List.getElem?_cons_zero, Option.some.injEq] at h
        subst h
        simp
      | k' + 1 =>
        simp only [List.getElem?_cons_succ] at h
        rcases ih n k' p h with ⟨h1, h2⟩
        exact ⟨by simpa using h1, by simpa using h2⟩

/-- The k-th record span of `slice_entries` starts with the id string `k+1`, a
category token, and a 1-4 CJK run. -/
theorem span_facts (tokens : List PyStr) (k : Nat) (p : Nat × Nat)
    (hp : (spanPairs (locate_entries tokens) tokens.length)[k]? = some p) :
    ∃ t1 t2 rest2,
      pySlice tokens p.1 p.2 = natDigits (1 + k) :: t1 :: t2 :: rest2 ∧
      t1 ∈ CATEGORIES ∧ isCJK14 t2 = true := by
  rcases spanPairs_get? (locate_entries tokens) tokens.length k p hp with ⟨h1, h2⟩
  rcases locateLoop_spec tokens (tokens.length + 1) 0 1 k p.1 h1 with
    ⟨_, ⟨t1, t2, rest, hdrop, hcat, hcjk⟩, hgap⟩
  have hlen3 : 3 ≤ p.2 - p.1 := by
    rcases h2 with ⟨v, hv, hp2⟩ | ⟨_, hp2⟩
    · have := hgap v hv
      omega
    · have hlendrop := congrArg List.length hdrop
      rw [List.length_drop] at hlendrop
      simp only [List.length_cons] at hlendrop
      omega
  obtain ⟨j, hj⟩ : ∃ j, p.2 - p.1 = j + 3 := ⟨p.2 - p.1 - 3, by omega⟩
  refine ⟨t1, t2, rest.take j, ?_, hcat, hcjk⟩
  rw [pySlice, hdrop, hj]
  rfl

/-- Evaluation of `sliceOne` on a well-formed span head: it never raises, an
emitted record carries the parsed id, the two category tokens, and a stripped
city token found in the tail, and a span whose tail has no city token is
dropped. -/
theorem sliceOne_span (ord : List PyStr) (v : Int) (s0 s1 s2 : PyStr)
    (rest : List PyStr) (hid : pyIntOfStr s0 = some v) :
    sliceOne ord (s0 :: s1 :: s2 :: rest) ≠ none ∧
    (∀ shop, sliceOne ord (s0 :: s1 :: s2 :: rest) = some (some shop) →
      shop.id = v ∧ shop.category_main = s1 ∧ shop.category_sub = s2 ∧
      ∃ city ∈ rest, is_city city = true ∧ shop.city = pyStrip city) ∧
    ((∀ t ∈ rest, is_city t = false) →
      sliceOne ord (s0 :: s1 :: s2 :: rest) = some none) := by
  cases hdw : rest.dropWhile (fun t => !is_city t) with
  | nil =>
    have hval : sliceOne ord (s0 :: s1 :: s2 :: rest) = some none := by
      simp only [sliceOne, hid, hdw]
    refine ⟨by rw [hval]; simp, ?_, fun _ => hval⟩
    intro shop hshop
    rw [hval] at hshop
    simp at hshop
  | cons city rest3 =>
    rcases dropWhile_eq_cons_facts _ rest city rest3 hdw with ⟨hpc, hmem⟩
    have hcity : is_city city = true := by simpa using hpc
    refine ⟨?_, ?_, ?_⟩
    · simp only [sliceOne, hid, hdw]
      simp
    · intro shop hshop
      simp only [sliceOne, hid, hdw] at hshop
      have h2 := Option.some.inj (Option.some.inj hshop)
      subst h2
      exact ⟨rfl, rfl, rfl, city, hmem, hcity, rfl⟩
    · intro hall
      exact absurd hcity (by rw [hall city hmem]; simp)

/-! ## Collecting span results -/

theorem collectShops_mem : ∀ (l : List (Option (Option Shop))) (shops : List Shop),
    collectShops l = some shops → ∀ s ∈ shops, some (some s) ∈ l := by
  intro l
  induction l with
  | nil =>
    intro shops h s hs
    simp only [collectShops, Option.some.injEq] at h
    subst h
    simp at hs
  | cons x t ih =>
    intro shops h s hs
    match x with
    | none => simp [collectShops] at h
    | some none =>
      simp only [collectShops] at h
      exact List.mem_cons_of_mem _ (ih shops h s hs)
    | some (some y) =>
      simp only [collectShops] at h
      rcases Option.map_eq_some'.mp h with ⟨shops', h1, h2⟩
      subst h2
      rcases List.mem_cons.mp hs with hs | hs
      · subst hs; simp
      · exact List.mem_cons_of_mem _ (ih shops' h1 s hs)

theorem collectShops_length_le : ∀ (l : List (Option (Option Shop))) (shops : List Shop),
    collectShops l = some shops → shops.length ≤ l.length := by
  intro l
  induction l with
  | nil =>
    intro shops h
    simp only [collectShops, Option.some.injEq] at h
    subst h
    simp
  | cons x t ih =>
    intro shops h
    match x with
    | none => simp [collectShops] at h
    | some none =>
      simp only [collectShops] at h
      have := ih shops h
      simp
      omega
    | some (some y) =>
      simp only [collectShops] at h
      rcases Option.map_eq_some'.mp h with ⟨shops', h1, h2⟩
      subst h2
      have := ih shops' h1
      simp
      omega

theorem collect_ids : ∀ (opts : List (Option (Option Shop))) (ids : List Int),
    opts.length = ids.length →
    (∀ (k : Nat) (o : Option (Option Shop)) (idv : Int), opts[k]? = some o →
      ids[k]? = some idv → ∀ shop : Shop, o = some (some shop) → shop.id = idv) →
    ∀ shops, collectShops opts = some shops →
      (shops.map Shop.id).Sublist ids ∧
      (shops.length = opts.length → shops.map Shop.id = ids) := by
  intro opts
  induction opts with
  | nil =>
    intro ids hlen hspec shops h
    simp only [collectShops, Option.some.injEq] at h
    subst h
    have hids : ids = [] := by
      cases ids with
      | nil => rfl
      | cons a t => simp at hlen
    subst hids
    simp
  | cons x t ih =>
    intro ids hlen hspec shops h
    cases ids with
    | nil => simp at hlen
    | cons idv ids' =>
      have hlen' : t.length = ids'.length := by simpa using hlen
      have hspec' : ∀ (k : Nat) (o : Option (Option Shop)) (iv : Int),
          t[k]? = some o → ids'[k]? = some iv →
          ∀ shop : Shop, o = some (some shop) → shop.id = iv := by
        intro k o iv ho hi shop hs
        exact hspec (k + 1) o iv (by simpa using ho) (by simpa using hi) shop hs
      match x with
      | none => simp [collectShops] at h
      | some none =>
        simp only [collectShops] at h
        rcases ih ids' hlen' hspec' shops h with ⟨hsub, _⟩
        constructor
        · exact hsub.cons idv
        · intro heq
          have hle := collectShops_length_le t shops h
          simp only [List.length_cons] at heq
          omega
      | some (some y) =>
        simp only [collectShops] at h
        rcases Option.map_eq_some'.mp h with ⟨shops', h1, h2⟩
        subst h2
        have hy : y.id = idv :=
          hspec 0 (some (some y)) idv (by simp) (by simp) y rfl
        rcases ih ids' hlen' hspec' shops' h1 with ⟨hsub, heq⟩
        constructor
        · simp only [List.map_cons, hy]
          exact hsub.cons₂ idv
        · intro hlen2
          simp only [List.length_cons] at hlen2
          simp only [List.map_cons, hy]
          rw [heq (by omega)]

/-! ## Claims C2, C3, C10 -/

/-- C10: every Shop record produced by the sequential reconstructor has a
`category_main` in the fixed `CATEGORIES` set and a `category_sub` matching a
run of 1 to 4 CJK characters, for every input token list, because each
record's span starts at a located boundary triple. -/
theorem c10_categories_invariant (ord tokens : List PyStr) (shops : List Shop)
    (h : slice_entries ord tokens = some shops) :
    ∀ shop ∈ shops, shop.category_main ∈ CATEGORIES ∧ isCJK14 shop.category_sub = true := by
  intro shop hshop
  rw [slice_entries] at h
  have hmem := collectShops_mem _ shops h shop hshop
  rcases List.mem_map.mp hmem with ⟨p, hp, hval⟩
  rcases List.mem_iff_getElem?.mp hp with ⟨k, hk⟩
  rcases span_facts tokens k p hk with ⟨t1, t2, rest2, hseg, hcat, hcjk⟩
  have hid := pyIntOfStr_natDigits (1 + k)
  rcases sliceOne_span ord _ _ t1 t2 rest2 hid with ⟨_, hrec, _⟩
  rw [hseg] at hval
  rcases hrec shop hval with ⟨_, hm, hs, _⟩
  rw [hm, hs]
  exact ⟨hcat, hcjk⟩

/-- Concrete token list with one record (category `醫療`). -/
def c10Tokens : List PyStr :=
  [pystr r"1", pystr r"醫療", pystr r"診所", pystr r"桃園市", pystr r"平鎮", pystr r"巷"]

/-- The records the reconstructor emits for `c10Tokens`. -/
def c10Shops : List Shop := (slice_entries headerFragments c10Tokens).getD []

/-- The record reconstructed from `c10Tokens`. -/
def c10Shop : Shop :=
  ⟨1, pystr r"醫療", pystr r"診所", [], [], pystr r"桃園市", pystr r"平鎮", pystr r"巷", []⟩

/-- Witness for C10 at a concrete token list. -/
theorem c10_categories_invariant_witness :
    c10Shop.category_main ∈ CATEGORIES ∧ isCJK14 c10Shop.category_sub = true :=
  c10_categories_invariant headerFragments c10Tokens c10Shops (by decide) c10Shop (by decide)

/-- C3: every record produced by the sequential reconstructor has a city field
that still matches `.*[市縣]$` after stripping and is nonempty; and any
candidate span none of whose tokens matches the city pattern yields no record
at all (`some none`, the `continue` branch). -/
theorem c3_city_invariant (ord tokens : List PyStr) (shops : List Shop)
    (h : slice_entries ord tokens = some shops) :
    (∀ shop ∈ shops, is_city shop.city = true ∧ shop.city ≠ []) ∧
    (∀ p ∈ spanPairs (locate_entries tokens) tokens.length,
      (∀ t ∈ pySlice tokens p.1 p.2, is_city t = false) →
      sliceOne ord (pySlice tokens p.1 p.2) = some none) := by
  constructor
  · intro shop hshop
    rw [slice_entries] at h
    have hmem := collectShops_mem _ shops h shop hshop
    rcases List.mem_map.mp hmem with ⟨p, hp, hval⟩
    rcases List.mem_iff_getElem?.mp hp with ⟨k, hk⟩
    rcases span_facts tokens k p hk with ⟨t1, t2, rest2, hseg, _, _⟩
    have hid := pyIntOfStr_natDigits (1 + k)
    rcases sliceOne_span ord _ _ t1 t2 rest2 hid with ⟨_, hrec, _⟩
    rw [hseg] at hval
    rcases hrec shop hval with ⟨_, _, _, city, hcmem, hcity, hceq⟩
    rw [hceq]
    exact is_city_strip city hcity
  · intro p hp hall
    rcases List.mem_iff_getElem?.mp hp with ⟨k, hk⟩
    rcases span_facts tokens k p hk with ⟨t1, t2, rest2, hseg, _, _⟩
    have hid := pyIntOfStr_natDigits (1 + k)
    rcases sliceOne_span ord _ _ t1 t2 rest2 hid with ⟨_, _, hdropped⟩
    rw [hseg]
    apply hdropped
    intro t ht
    apply hall
    rw [hseg]
    simp [ht]

/-- Concrete token list whose second located span has no city token. -/
def c3Tokens : List PyStr :=
  [pystr r"1", pystr r"生活", pystr r"麵店", pystr r"台北市", pystr r"大安", pystr r"路",
   pystr r"2", pystr r"休閒", pystr r"飯店"]

/-- The records the reconstructor emits for `c3Tokens`. -/
def c3Shops : List Shop := (slice_entries headerFragments c3Tokens).getD []

/-- Witness for C3 at a concrete token list (one emitted record, one dropped
span). -/
theorem c3_city_invariant_witness :
    (∀ shop ∈ c3Shops, is_city shop.city = true ∧ shop.city ≠ []) ∧
    (∀ p ∈ spanPairs (locate_entries c3Tokens) c3Tokens.length,
      (∀ t ∈ pySlice c3Tokens p.1 p.2, is_city t = false) →
      sliceOne headerFragments (pySlice c3Tokens p.1 p.2) = some none) :=
  c3_city_invariant headerFragments c3Tokens c3Shops (by decide)

/-- The gap-free id sequence 1, 2, ..., n as integers. -/
def idsOfCount (n : Nat) : List Int := (List.range n).map (fun k => Int.ofNat k + 1)

/-- C2 (amended): the id fields of the emitted records are always strictly
increasing; they are additionally gap-free starting at 1 (the k-th record has
id k) exactly when no located span was dropped, i.e. when the number of
records equals the number of located boundaries. -/
theorem c2_ids_strictly_increasing (ord tokens : List PyStr) (shops : List Shop)
    (h : slice_entries ord tokens = some shops) :
    (shops.map Shop.id).Pairwise (· < ·) ∧
    (shops.length = (locate_entries tokens).length →
      shops.map Shop.id = idsOfCount shops.length) := by
  rw [slice_entries] at h
  have hlen : ((spanPairs (locate_entries tokens) tokens.length).map
      (fun p => sliceOne ord (pySlice tokens p.1 p.2))).length =
      (idsOfCount (spanPairs (locate_entries tokens) tokens.length).length).length := by
    simp [idsOfCount]
  have hspec : ∀ (k : Nat) (o : Option (Option Shop)) (idv : Int),
      ((spanPairs (locate_entries tokens) tokens.length).map
        (fun p => sliceOne ord (pySlice tokens p.1 p.2)))[k]? = some o →
      (idsOfCount (spanPairs (locate_entries tokens) tokens.length).length)[k]? = some idv →
      ∀ shop : Shop, o = some (some shop) → shop.id = idv := by
    intro k o idv ho hi shop hs
    subst hs
    rw [List.getElem?_map] at ho
    rcases Option.map_eq_some'.mp ho with ⟨p, hp, hval⟩
    rcases span_facts tokens k p hp with ⟨t1, t2, rest2, hseg, _, _⟩
    have hid := pyIntOfStr_natDigits (1 + k)
    rcases sliceOne_span ord _ _ t1 t2 rest2 hid with ⟨_, hrec, _⟩
    rw [hseg] at hval
    rcases hrec shop hval with ⟨hidv, _, _, _⟩
    rw [idsOfCount, List.getElem?_map] at hi
    rcases Option.map_eq_some'.mp hi with ⟨k', hk', hkv⟩
    rcases List.getElem?_eq_some_iff.mp hk' with ⟨hklt, hkval⟩
    rw [List.getElem_range] at hkval
    subst hkval
    rw [hidv, ← hkv]
    simp only [Int.ofNat_eq_coe]
    omega
  rcases collect_ids _ _ hlen hspec shops h with ⟨hsub, heqf⟩
  have hpw : (idsOfCount (spanPairs (locate_entries tokens) tokens.length).length).Pairwise
      (· < ·) := by
    rw [idsOfCount]
    refine List.Pairwise.map _ ?_ (List.pairwise_lt_range _)
    intro a b hab
    simp only [Int.ofNat_eq_coe]
    omega
  constructor
  · exact hpw.sublist hsub
  · intro hleneq
    have hlen2 : shops.length = (spanPairs (locate_entries tokens) tokens.length).length := by
      rw [spanPairs_length]
      exact hleneq
    have heq := heqf (by simpa using hlen2)
    rw [heq, hlen2]

/-- Token list with three located spans; the middle span has no city token and
is dropped, so the emitted ids are 1 and 3. -/
def c2Tokens : List PyStr :=
  [pystr r"1", pystr r"生活", pystr r"麵店", pystr r"台北市", pystr r"大安", pystr r"路",
   pystr r"2", pystr r"生活", pystr r"飯店",
   pystr r"3", pystr r"生活", pystr r"店家", pystr r"台北市", pystr r"信義", pystr r"街"]

/-- The records the reconstructor emits for `c2Tokens`. -/
def c2Shops : List Shop := (slice_entries headerFragments c2Tokens).getD []

/-- C2 counterexample: on `c2Tokens` the reconstructor emits ids 1 and 3 — a
strictly increasing sequence with a gap, so the claimed "gap-free, the k-th
record has id k" fails (the second record has id 3, not 2). -/
theorem c2_counterexample :
    slice_entries headerFragments c2Tokens = some c2Shops ∧
      c2Shops.map Shop.id = [1, 3] ∧
      c2Shops.map Shop.id ≠ idsOfCount c2Shops.length := by
  refine ⟨by decide, by decide, by decide⟩

/-- Token list with two located spans, both kept. -/
def c2TokensW : List PyStr :=
  [pystr r"1", pystr r"生活", pystr r"麵店", pystr r"台北市", pystr r"大安", pystr r"路",
   pystr r"2", pystr r"休閒", pystr r"飯店", pystr r"桃園市", pystr r"中壢", pystr r"街"]

/-- The records the reconstructor emits for `c2TokensW`. -/
def c2ShopsW : List Shop := (slice_entries headerFragments c2TokensW).getD []

/-- Witness for the amended C2 theorem at a concrete input where both spans
are kept. -/
theorem c2_ids_strictly_increasing_witness :
    (c2ShopsW.map Shop.id).Pairwise (· < ·) ∧
    (c2ShopsW.length = (locate_entries c2TokensW).length →
      c2ShopsW.map Shop.id = idsOfCount c2ShopsW.length) :=
  c2_ids_strictly_increasing headerFragments c2TokensW c2ShopsW (by decide)

/-! ## CMap parsing (`parse_to_unicode` in scripts/extract_shops.py) -/

/-- Python line-break code points recognized by `str.splitlines`. -/
def pyIsLineBreakCp (c : Nat) : Bool :=
  c ∈ [10, 13, 11, 12, 28, 29, 30, 133, 8232, 8233]

/-- Worker for `str.splitlines`: `\r\n` counts as one break, a trailing break
adds no empty line. Fuel-indexed; each step consumes at least one character. -/
def splitLinesGo : Nat → PyStr → PyStr → List PyStr
  | 0, _, acc => [acc.reverse]
  | _ + 1, [], acc => [acc.reverse]
  | fuel + 1, 13 :: 10 :: r, acc =>
    acc.reverse :: (match r with | [] => [] | _ :: _ => splitLinesGo fuel r [])
  | fuel + 1, c :: r, acc =>
    if pyIsLineBreakCp c then
      acc.reverse :: (match r with | [] => [] | _ :: _ => splitLinesGo fuel r [])
    else splitLinesGo fuel r (c :: acc)

/-- Python `s.splitlines()`. -/
def pySplitLines : PyStr → List PyStr
  | [] => []
  | c :: r => splitLinesGo (r.length + 1) (c :: r) []

/-- Worker for `str.split()` with no arguments: split on whitespace runs,
dropping empty pieces. -/
def pySplitWsGo : Nat → PyStr → List PyStr
  | 0, _ => []
  | _ + 1, [] => []
  | fuel + 1, c :: r =>
    if pyIsSpaceCp c then pySplitWsGo fuel r
    else (c :: r.takeWhile (fun x => !pyIsSpaceCp x)) ::
      pySplitWsGo fuel (r.dropWhile (fun x => !pyIsSpaceCp x))

/-- Python `s.split()`. -/
def pySplitWs (s : PyStr) : List PyStr := pySplitWsGo (s.length + 1) s

/-- Python `s.strip(chars)`: drop the given characters from both ends. -/
def pyStripChars (chars : List Nat) (s : PyStr) : PyStr :=
  ((s.dropWhile (fun c => decide (c ∈ chars))).reverse.dropWhile
    (fun c => decide (c ∈ chars))).reverse

/-- Suffix test, Python's `s.endswith(suffix)`. -/
def endsWithL (suffix s : PyStr) : Bool := startsWithL suffix.reverse s.reverse

/-- Hex digit test for `int(x, 16)`. -/
def isHexDigitCp (c : Nat) : Bool :=
  (48 ≤ c && c ≤ 57) || (65 ≤ c && c ≤ 70) || (97 ≤ c && c ≤ 102)

/-- Value of a hex-digit run, most significant first. -/
def hexDigitsVal (l : PyStr) : Nat := l.foldl (fun a c => a * 16 + (hexDigitVal c).getD 0) 0

/-- Parse a nonempty all-hex-digit run, else `none`. -/
def parseHexRun (l : PyStr) : Option Nat :=
  if l ≠ [] ∧ l.all isHexDigitCp then some (hexDigitsVal l) else none

/-- Drop an optional `0x`/`0X` prefix, accepted by `int(x, 16)`. -/
def dropHexPre : PyStr → PyStr
  | 48 :: 120 :: r => r
  | 48 :: 88 :: r => r
  | l => l

/-- Python `int(s, 16)`: strip whitespace, optional sign, optional `0x`,
hex digits. -/
def pyIntHex (s : PyStr) : Option Int :=
  match pyStrip s with
  | [] => none
  | c :: r =>
    if c = 43 then (parseHexRun (dropHexPre r)).map Int.ofNat
    else if c = 45 then (parseHexRun (dropHexPre r)).map (fun n => -(n : Int))
    else (parseHexRun (dropHexPre (c :: r))).map Int.ofNat

/-- Python `chr`: accepts 0 to 0x10FFFF inclusive (lone surrogates included),
raises `ValueError` otherwise. -/
def pyChr (n : Int) : Option PyStr :=
  if 0 ≤ n ∧ n ≤ 1114111 then some [n.toNat] else none

/-- Python list indexing with one negative wrap-around; out-of-range is
`IndexError` (`none`). -/
def pyIdx (l : List PyStr) (i : Int) : Option PyStr :=
  if 0 ≤ i then l[i.toNat]?
  else if 0 ≤ (l.length : Int) + i then l[((l.length : Int) + i).toNat]?
  else none

/-- `range(1, count + 1)` over a Python int. -/
def intRangeList (count : Int) : List Int :=
  (List.range count.toNat).map (fun j => (j : Int) + 1)

/-- `range(start, end + 1)` over Python ints. -/
def intRangeFromTo (start endv : Int) : List Int :=
  (List.range (endv + 1 - start).toNat).map (fun j => start + (j : Int))

/-- `_decode_hex`: `bytes.fromhex` then UTF-16-BE, retrying as UTF-8, with the
empty string for any failure. -/
def decodeHexDst (cs : PyStr) : PyStr :=
  if cs = [] then []
  else
    match fromHexBytes cs with
    | none => []
    | some bs =>
      match utf16beDecode bs with
      | some s => s
      | none =>
        match utf8Decode bs with
        | some s => s
        | none => []

/-- Scan for the closing `>` of `re.findall(r"<(.*?)>", values)`: non-greedy,
`.` cannot cross a newline. Returns the captured text and the remainder. -/
def scanClose : PyStr → PyStr → Option (PyStr × PyStr)
  | [], _ => none
  | 62 :: r, acc => some (acc.reverse, r)
  | 10 :: _, _ => none
  | c :: r, acc => scanClose r (c :: acc)

/-- `re.findall(r"<(.*?)>", values)`: all non-overlapping captures, scanning
left to right. -/
def findAngleGo : Nat → PyStr → List PyStr
  | 0, _ => []
  | _ + 1, [] => []
  | fuel + 1, 60 :: r =>
    (match scanClose r [] with
     | some (cap, rem) => cap :: findAngleGo fuel rem
     | none => findAngleGo fuel r)
  | fuel + 1, _ :: r => findAngleGo fuel r

/-- The hex captures of the `values` accumulator. -/
def findAngle (s : PyStr) : List PyStr := findAngleGo (s.length + 1) s

/-- One `bfchar` line: skip when fewer than two tokens, else parse the source
code (raising on junk) and record the decoded destination. -/
def bfcharLine {σ : Type} (upd : σ → Int → PyStr → σ) (acc : σ) (line : PyStr) :
    Option σ :=
  match pySplitWs line with
  | p0 :: p1 :: _ =>
    match pyIntHex (pyStripChars [60, 62] p0) with
    | none => none
    | some src => some (upd acc src (decodeHexDst (pyStripChars [60, 62] p1)))
  | _ => some acc

/-- The `for offset in range(1, count + 1)` loop of the `bfchar` branch. -/
def bfcharLoop {σ : Type} (upd : σ → Int → PyStr → σ) (lines : List PyStr)
    (i : Int) : σ → List Int → Option σ
  | acc, [] => some acc
  | acc, offset :: rest =>
    match pyIdx lines (i + offset) with
    | none => none
    | some line =>
      match bfcharLine upd acc line with
      | none => none
      | some acc2 => bfcharLoop upd lines i acc2 rest

/-- The `while not values.strip().endswith("]")` continuation loop of the
`bfrange` array case, which increments `i` while gathering lines. Fuel-indexed;
the Python loop either terminates within `2*len(lines)` steps or raises. -/
def valuesLoop (lines : List PyStr) (offset : Int) :
    Nat → Int → PyStr → Option (Int × PyStr)
  | 0, _, _ => none
  | fuel + 1, i, values =>
    if endsWithL [93] (pyStrip values) then some (i, values)
    else
      match pyIdx lines (i + 1 + offset) with
      | none => none
      | some line => valuesLoop lines offset fuel (i + 1) (values ++ [32] ++ line)

/-- `chr(base + code - start)` assignments of the plain `bfrange` case;
`chr` can raise. -/
def chrFoldGo {σ : Type} (upd : σ → Int → PyStr → σ) (base startv : Int) :
    σ → List Int → Option σ
  | acc, [] => some acc
  | acc, code :: rest =>
    match pyChr (base + code - startv) with
    | none => none
    | some ch => chrFoldGo upd base startv (upd acc code ch) rest

/-- One `bfrange` line at the given offset: skip on fewer than three tokens;
parse start and end (raising on junk); then either the array-destination case
(gather continuation lines, mutating `i`, and record one entry per `<...>`
capture) or the contiguous case (`chr(base + code - start)` per code). -/
def bfrangeOne {σ : Type} (upd : σ → Int → PyStr → σ) (lines : List PyStr)
    (offset : Int) (st : Int × σ) : Option (Int × σ) :=
  match pyIdx lines (st.1 + offset) with
  | none => none
  | some line =>
    match pySplitWs line with
    | p0 :: p1 :: p2 :: prest =>
      match pyIntHex (pyStripChars [60, 62] p0), pyIntHex (pyStripChars [60, 62] p1) with
      | some startv, some _endv =>
        if startsWithL [91] p2 then
          match valuesLoop lines offset (2 * lines.length + 2) st.1
              (joinSpace (p2 :: prest)) with
          | none => none
          | some (i2, values) =>
            some (i2, ((findAngle values).enum).foldl
              (fun a q => upd a (startv + (q.1 : Int)) (decodeHexDst q.2)) st.2)
        else
          match pyIntHex (pyStripChars [60, 62] p2) with
          | none => none
          | some base =>
            match chrFoldGo upd base startv st.2 (intRangeFromTo startv _endv) with
            | none => none
            | some acc2 => some (st.1, acc2)
      | _, _ => none
    | _ => some st

/-- The `for offset in range(1, count + 1)` loop of the `bfrange` branch,
threading the (mutable) `i` through the offsets. -/
def bfrangeLoop {σ : Type} (upd : σ → Int → PyStr → σ) (lines : List PyStr) :
    (Int × σ) → List Int → Option (Int × σ)
  | st, [] => some st
  | st, offset :: rest =>
    match bfrangeOne upd lines offset st with
    | none => none
    | some st2 => bfrangeLoop upd lines st2 rest

/-- The outer `while i < len(lines)` loop of `parse_to_unicode`, generic in
the accumulator update so the construction order of the mapping can be
observed. Fuel-indexed: the loop's control state is just `i`, which ranges
over at most `2*len(lines)` values before the loop must exit, raise, or repeat
a state (and so diverge, modelled as `none` by fuel exhaustion). -/
def ptuLoop {σ : Type} (upd : σ → Int → PyStr → σ) (lines : List PyStr) :
    Nat → Int → σ → Option σ
  | 0, _, _ => none
  | fuel + 1, i, acc =>
    if i < (lines.length : Int) then
      match pyIdx lines i with
      | none => none
      | some line =>
        if endsWithL (pystr r"beginbfchar") line then
          match pySplitWs line with
          | [] => none
          | p0 :: _ =>
            match pyIntOfStr p0 with
            | none => none
            | some count =>
              match bfcharLoop upd lines i acc (intRangeList count) with
              | none => none
              | some acc2 => ptuLoop upd lines fuel (i + count + 1) acc2
        else if endsWithL (pystr r"beginbfrange") line then
          match pySplitWs line with
          | [] => none
          | p0 :: _ =>
            match pyIntOfStr p0 with
            | none => none
            | some count =>
              match bfrangeLoop upd lines (i, acc) (intRangeList count) with
              | none => none
              | some st2 => ptuLoop upd lines fuel (st2.1 + count + 1) st2.2
        else ptuLoop upd lines fuel (i + 1) acc
    else some acc

/-- The stripped lines `parse_to_unicode` iterates over. -/
def ptuLines (map_data : PyStr) : List PyStr := (pySplitLines map_data).map pyStrip

/-- Embedding of `parse_to_unicode`, producing the mapping dict. -/
def parse_to_unicode (map_data : PyStr) : Option CMap :=
  ptuLoop dictSet (ptuLines map_data) (2 * (ptuLines map_data).length + 2) 0 emptyCMap

/-- The same parse observed as the list of dict writes `(src, text)` in
processing order (which follows document declaration order). -/
def ptuWrites (map_data : PyStr) : Option (List (Int × PyStr)) :=
  ptuLoop (fun l k v => l ++ [(k, v)]) (ptuLines map_data)
    (2 * (ptuLines map_data).length + 2) 0 []

/-- The destination text of the last write for a source code. -/
def lastWrite (ws : List (Int × PyStr)) (k : Int) : Option PyStr :=
  ws.foldl (fun r p => if p.1 = k then some p.2 else r) none

/-! ## The parse builds the dict by in-order writes -/

section PtuHom

variable {σ τ : Type} (upd1 : σ → Int → PyStr → σ) (upd2 : τ → Int → PyStr → τ)
variable (h : σ → τ)

theorem enumFold_hom (hcomm : ∀ s k v, h (upd1 s k v) = upd2 (h s) k v)
    (startv : Int) :
    ∀ (l : List (Nat × PyStr)) (acc : σ),
    h (l.foldl (fun a q => upd1 a (startv + (q.1 : Int)) (decodeHexDst q.2)) acc) =
      l.foldl (fun a q => upd2 a (startv + (q.1 : Int)) (decodeHexDst q.2)) (h acc) := by
  intro l
  induction l with
  | nil => intro acc; rfl
  | cons q rest ih =>
    intro acc
    simp only [List.foldl_cons]
    rw [ih, hcomm]

theorem chrFoldGo_hom (hcomm : ∀ s k v, h (upd1 s k v) = upd2 (h s) k v)
    (base startv : Int) :
    ∀ (codes : List Int) (acc : σ),
    (chrFoldGo upd1 base startv acc codes).map h =
      chrFoldGo upd2 base startv (h acc) codes := by
  intro codes
  induction codes with
  | nil => intro acc; rfl
  | cons code rest ih =>
    intro acc
    simp only [chrFoldGo]
    cases hch : pyChr (base + code - startv) with
    | none => simp
    | some ch =>
      simp only []
      rw [ih, hcomm]

theorem bfcharLine_hom (hcomm : ∀ s k v, h (upd1 s k v) = upd2 (h s) k v)
    (acc : σ) (line : PyStr) :
    (bfcharLine upd1 acc line).map h = bfcharLine upd2 (h acc) line := by
  cases hps : pySplitWs line with
  | nil => simp [bfcharLine, hps]
  | cons p0 rest =>
    cases rest with
    | nil => simp [bfcharLine, hps]
    | cons p1 rest2 =>
      cases hint : pyIntHex (pyStripChars [60, 62] p0) with
      | none => simp [bfcharLine, hps, hint]
      | some src => simp [bfcharLine, hps, hint, hcomm]

theorem bfcharLoop_hom (hcomm : ∀ s k v, h (upd1 s k v) = upd2 (h s) k v)
    (lines : List PyStr) (i : Int) :
    ∀ (offs : List Int) (acc : σ),
    (bfcharLoop upd1 lines i acc offs).map h = bfcharLoop upd2 lines i (h acc) offs := by
  intro offs
  induction offs with
  | nil => intro acc; rfl
  | cons offset rest ih =>
    intro acc
    simp only [bfcharLoop]
    cases hidx : pyIdx lines (i + offset) with
    | none => simp
    | some line =>
      simp only []
      have hline := bfcharLine_hom upd1 upd2 h hcomm acc line
      cases hbl : bfcharLine upd1 acc line with
      | none =>
        rw [hbl] at hline
        simp only [Option.map_none'] at hline
        rw [← hline]
        rfl
      | some acc2 =>
        rw [hbl] at hline
        simp only [Option.map_some'] at hline
        rw [← hline, ih]

theorem bfrangeOne_hom (hcomm : ∀ s k v, h (upd1 s k v) = upd2 (h s) k v)
    (lines : List PyStr) (offset : Int) (st : Int × σ) :
    (bfrangeOne upd1 lines offset st).map (Prod.map id h) =
      bfrangeOne upd2 lines offset (st.1, h st.2) := by
  cases hidx : pyIdx lines (st.1 + offset) with
  | none => simp [bfrangeOne, hidx]
  | some line =>
    cases hps : pySplitWs line with
    | nil => simp [bfrangeOne, hidx, hps, Prod.map]
    | cons p0 rest =>
      cases rest with
      | nil => simp [bfrangeOne, hidx, hps, Prod.map]
      | cons p1 rest2 =>
        cases rest2 with
        | nil => simp [bfrangeOne, hidx, hps, Prod.map]
        | cons p2 prest =>
          cases hint0 : pyIntHex (pyStripChars [60, 62] p0) with
          | none => simp [bfrangeOne, hidx, hps, hint0]
          | some startv =>
            cases hint1 : pyIntHex (pyStripChars [60, 62] p1) with
            | none => simp [bfrangeOne, hidx, hps, hint0, hint1]
            | some endv =>
              by_cases hbr : startsWithL [91] p2 = true
              · cases hvl : valuesLoop lines offset (2 * lines.length + 2) st.1
                    (joinSpace (p2 :: prest)) with
                | none => simp [bfrangeOne, hidx, hps, hint0, hint1, hbr, hvl]
                | some iv =>
                  simp [bfrangeOne, hidx, hps, hint0, hint1, hbr, hvl,
                    enumFold_hom upd1 upd2 h hcomm startv]
              · cases hint2 : pyIntHex (pyStripChars [60, 62] p2) with
                | none => simp [bfrangeOne, hidx, hps, hint0, hint1, hbr, hint2]
                | some base =>
                  have hch := chrFoldGo_hom upd1 upd2 h hcomm base startv
                    (intRangeFromTo startv endv) st.2
                  cases hcf : chrFoldGo upd1 base startv st.2
                      (intRangeFromTo startv endv) with
                  | none =>
                    rw [hcf] at hch
                    simp only [Option.map_none'] at hch
                    simp [bfrangeOne, hidx, hps, hint0, hint1, hbr, hint2, hcf, ← hch]
                  | some acc2 =>
                    rw [hcf] at hch
                    simp only [Option.map_some'] at hch
                    simp [bfrangeOne, hidx, hps, hint0, hint1, hbr, hint2, hcf, ← hch]

theorem bfrangeLoop_hom (hcomm : ∀ s k v, h (upd1 s k v) = upd2 (h s) k v)
    (lines : List PyStr) :
    ∀ (offs : List Int) (st : Int × σ),
    (bfrangeLoop upd1 lines st offs).map (Prod.map id h) =
      bfrangeLoop upd2 lines (st.1, h st.2) offs := by
  intro offs
  induction offs with
  | nil => intro st; rfl
  | cons offset rest ih =>
    intro st
    simp only [bfrangeLoop]
    have hone := bfrangeOne_hom upd1 upd2 h hcomm lines offset st
    cases hbo : bfrangeOne upd1 lines offset st with
    | none =>
      rw [hbo] at hone
      simp only [Option.map_none'] at hone
      rw [← hone]
      rfl
    | some st2 =>
      rw [hbo] at hone
      simp only [Option.map_some'] at hone
      rw [← hone, ih st2]
      obtain ⟨a2, b2⟩ := st2
      rfl

theorem ptuLoop_hom (hcomm : ∀ s k v, h (upd1 s k v) = upd2 (h s) k v)
    (lines : List PyStr) :
    ∀ (fuel : Nat) (i : Int) (acc : σ),
    (ptuLoop upd1 lines fuel i acc).map h = ptuLoop upd2 lines fuel i (h acc) := by
  intro fuel
  induction fuel with
  | zero => intro i acc; rfl
  | succ fuel ih =>
    intro i acc
    simp only [ptuLoop]
    by_cases hi : i < (lines.length : Int)
    · simp only [hi, if_true]
      cases hidx : pyIdx lines i with
      | none => simp
      | some line =>
        simp only []
        by_cases hbc : endsWithL (pystr r"beginbfchar") line = true
        · simp only [hbc, if_true]
          cases hps : pySplitWs line with
          | nil => simp
          | cons p0 rest =>
            simp only []
            cases hint : pyIntOfStr p0 with
            | none => simp
            | some count =>
              simp only []
              have hbl := bfcharLoop_hom upd1 upd2 h hcomm lines i (intRangeList count) acc
              cases hlp : bfcharLoop upd1 lines i acc (intRangeList count) with
              | none =>
                rw [hlp] at hbl
                simp only [Option.map_none'] at hbl
                rw [← hbl]
                rfl
              | some acc2 =>
                rw [hlp] at hbl
                simp only [Option.map_some'] at hbl
                rw [← hbl, ih]
        · simp only [hbc, Bool.false_eq_true, if_false]
          by_cases hbrg : endsWithL (pystr r"beginbfrange") line = true
          · simp only [hbrg, if_true]
            cases hps : pySplitWs line with
            | nil => simp
            | cons p0 rest =>
              simp only []
              cases hint : pyIntOfStr p0 with
              | none => simp
              | some count =>
                simp only []
                have hbl := bfrangeLoop_hom upd1 upd2 h hcomm lines
                  (intRangeList count) (i, acc)
                cases hlp : bfrangeLoop upd1 lines (i, acc) (intRangeList count) with
                | none =>
                  rw [hlp] at hbl
                  simp only [Option.map_none'] at hbl
                  rw [← hbl]
                  rfl
                | some st2 =>
                  obtain ⟨i2, acc2⟩ := st2
                  rw [hlp] at hbl
                  simp only [Option.map_some'] at hbl
                  rw [← hbl]
                  exact ih (i2 + count + 1) acc2
          · simp only [hbrg, Bool.false_eq_true, if_false]
            exact ih (i + 1) acc
    · simp only [hi, if_false]
      rfl

end PtuHom

theorem cmapOfEntries_append (ws : List (Int × PyStr)) (k : Int) (v : PyStr) :
    cmapOfEntries (ws ++ [(k, v)]) = dictSet (cmapOfEntries ws) k v := by
  rw [cmapOfEntries, cmapOfEntries, List.foldl_append]
  rfl

theorem cmapOfEntries_eq_lastWrite : ∀ (ws : List (Int × PyStr)) (d : CMap) (k : Int),
    (ws.foldl (fun d p => dictSet d p.1 p.2) d) k =
      ws.foldl (fun r p => if p.1 = k then some p.2 else r) (d k) := by
  intro ws
  induction ws with
  | nil => intro d k; rfl
  | cons a rest ih =>
    intro d k
    simp only [List.foldl_cons]
    rw [ih]
    by_cases hk : a.1 = k
    · subst hk
      simp [dictSet]
    · have : dictSet d a.1 a.2 k = d k := by
        rw [dictSet, if_neg (by omega)]
      rw [this, if_neg hk]

/-- C8: whenever `parse_to_unicode` returns a mapping, that mapping sends
every source code to the destination text of the last write for it, and the
writes are produced in processing order — which follows document declaration
order — so later `bfchar`/`bfrange` entries for the same source code overwrite
earlier ones (last-write-wins). -/
theorem c8_last_write_wins (map_data : PyStr) (m : CMap)
    (h : parse_to_unicode map_data = some m) :
    ∃ ws, ptuWrites map_data = some ws ∧ ∀ src, m src = lastWrite ws src := by
  have hh := ptuLoop_hom (fun l k v => l ++ [(k, v)]) dictSet cmapOfEntries
    (fun s k v => cmapOfEntries_append s k v) (ptuLines map_data)
    (2 * (ptuLines map_data).length + 2) 0 []
  have hemp : cmapOfEntries [] = emptyCMap := rfl
  rw [hemp] at hh
  rw [parse_to_unicode] at h
  rw [ptuWrites]
  cases hw : ptuLoop (fun l k v => l ++ [(k, v)]) (ptuLines map_data)
      (2 * (ptuLines map_data).length + 2) 0 [] with
  | none =>
    rw [hw] at hh
    simp only [Option.map_none'] at hh
    rw [← hh] at h
    simp at h
  | some ws =>
    rw [hw] at hh
    simp only [Option.map_some'] at hh
    rw [← hh] at h
    refine ⟨ws, rfl, ?_⟩
    intro src
    have hm : cmapOfEntries ws = m := Option.some.inj h
    rw [← hm, cmapOfEntries, cmapOfEntries_eq_lastWrite ws emptyCMap src]
    rfl

/-- A CMap stream declaring source code 0x41 twice (`<0042>` then `<0043>`). -/
def c8MapData : PyStr :=
  joinL [pystr r"2 beginbfchar", [10], pystr r"<41> <0042>", [10],
    pystr r"<41> <0043>", [10], pystr r"endbfchar"]

/-- The mapping built from `c8MapData`. -/
def c8Map : CMap := (parse_to_unicode c8MapData).getD emptyCMap

/-- Witness for C8 on a concrete stream with a duplicated source code. -/
theorem c8_last_write_wins_witness :
    ∃ ws, ptuWrites c8MapData = some ws ∧ ∀ src, c8Map src = lastWrite ws src :=
  c8_last_write_wins c8MapData c8Map rfl

/-! ## generate_site.py: geometric record reconstruction (`extract_records`)

A text row carries its baseline `y` and the positioned fragments `(x, text)`;
coordinates are modelled as rationals (PDF coordinates are decimal numerals).
-/

structure Row where
  y : Rat
  items : List (Rat × PyStr)

/-- Stable insertion step for sorting by `x`: the new element goes before the
first element whose key is not smaller, so equal keys keep input order. -/
def insertByX (p : Rat × PyStr) : List (Rat × PyStr) → List (Rat × PyStr)
  | [] => [p]
  | q :: rest => if q.1 < p.1 then q :: insertByX p rest else p :: q :: rest

/-- Python `sorted(items, key=lambda item: item[0])` (stable, ascending). -/
def sortByX : List (Rat × PyStr) → List (Rat × PyStr)
  | [] => []
  | p :: rest => insertByX p (sortByX rest)

/-- The per-column text buckets of one row. -/
structure Buckets where
  index : List PyStr
  category : List PyStr
  name : List PyStr
  phone : List PyStr
  city : List PyStr
  district : List PyStr
  address : List PyStr
  offer : List PyStr

/-- Assign a fragment to the first column whose x-limit exceeds its `x`
(limits 40/60/240/310/340/370/520/9999 as in the `columns` table); fragments
at `x ≥ 9999` are dropped. -/
def addToBucket (b : Buckets) (x : Rat) (t : PyStr) : Buckets :=
  if x < 40 then { b with index := b.index ++ [t] }
  else if x < 60 then { b with category := b.category ++ [t] }
  else if x < 240 then { b with name := b.name ++ [t] }
  else if x < 310 then { b with phone := b.phone ++ [t] }
  else if x < 340 then { b with city := b.city ++ [t] }
  else if x < 370 then { b with district := b.district ++ [t] }
  else if x < 520 then { b with address := b.address ++ [t] }
  else if x < 9999 then { b with offer := b.offer ++ [t] }
  else b

/-- The `header_keywords` set of `extract_records`, in literal order (only
membership is ever used, so the set's iteration order is irrelevant here). -/
def headerKeywords : List PyStr :=
  [pystr r"編", pystr r"分", pystr r"店家名稱", pystr r"聯絡電話", pystr r"縣市",
   pystr r"區域", pystr r"地址", pystr r"提供之優惠",
   pystr r"備註：詳細優惠內容請洽各特約商店"]

/-- Python `filter(None, strings)`. -/
def filterNonEmpty (l : List PyStr) : List PyStr := l.filter (fun s => !s.isEmpty)

/-- The accumulator dict built for one shop while scanning rows (`current`);
`index = none` models the explicit `None` stored by `index_text or None`. -/
structure RawRecord where
  index : Option PyStr
  category : PyStr
  name : PyStr
  phones : List PyStr
  locations : List PyStr
  offers : List PyStr

/-- Python truthiness of `current.get("index")`. -/
def truthyOpt : Option PyStr → Bool
  | none => false
  | some s => !s.isEmpty

/-- One iteration of the row loop of `extract_records`: bucket the row's
fragments, compute the joined column texts, skip header rows (`y > 520` or a
header keyword in the line text), then update `(current, records)` exactly as
the `if category_text and name_text / elif index_text and current` chain and
the trailing `if current:` appends do. -/
def stepRow (st : Option RawRecord × List RawRecord) (row : Row) :
    Option RawRecord × List RawRecord :=
  let b := (sortByX row.items).foldl (fun b p => addToBucket b p.1 p.2)
    ⟨[], [], [], [], [], [], [], []⟩
  let indexText := pyStrip (joinL b.index)
  let categoryText := pyStrip (joinL b.category)
  let nameText := pyStrip (joinL b.name)
  let phoneText := pyStrip (joinSpace b.phone)
  let cityText := pyStrip (joinL b.city)
  let districtText := pyStrip (joinL b.district)
  let addressText := pyStrip (joinSpace b.address)
  let locationText := pyStrip (joinSpace (filterNonEmpty [cityText, districtText, addressText]))
  let offerText := pyStrip (joinSpace b.offer)
  let lineText := joinSpace (filterNonEmpty
    [indexText, categoryText, nameText, phoneText, cityText, districtText, addressText])
  if decide ((520 : Rat) < row.y) || headerKeywords.any (fun kw => containsSub kw lineText) then
    st
  else
    let st2 : Option RawRecord × List RawRecord :=
      if !categoryText.isEmpty && !nameText.isEmpty then
        (some ⟨if indexText.isEmpty then none else some indexText,
          categoryText, nameText, [], [], []⟩,
         match st.1 with
         | some c => if truthyOpt c.index then st.2 ++ [c] else st.2
         | none => st.2)
      else if !indexText.isEmpty then
        match st.1 with
        | some c => (some { c with index := some indexText }, st.2)
        | none => st
      else st
    match st2.1 with
    | none => st2
    | some c =>
      (some { c with
          phones := if phoneText.isEmpty then c.phones else c.phones ++ [phoneText],
          locations := if locationText.isEmpty then c.locations
            else c.locations ++ [locationText],
          offers := if offerText.isEmpty then c.offers else c.offers ++ [offerText] },
       st2.2)

/-- The raw record list of `extract_records` before renumbering: fold the row
loop and flush the final `current` (`if current: records.append(current)`). -/
def recordsOf (rows : List Row) : List RawRecord :=
  match rows.foldl stepRow (none, []) with
  | (none, rs) => rs
  | (some c, rs) => rs ++ [c]

/-- Python `list(dict.fromkeys(l))`: keep the first occurrence of each value. -/
def dedupGo (seen : List PyStr) : List PyStr → List PyStr
  | [] => []
  | a :: rest => if a ∈ seen then dedupGo seen rest else a :: dedupGo (a :: seen) rest

/-- Order-preserving deduplication, keeping first occurrences. -/
def dedupFirst (l : List PyStr) : List PyStr := dedupGo [] l

/-- Python `x or y` where `x` is an optional string (`record.get(key) or y`). -/
def pyOrStr : Option PyStr → PyStr → PyStr
  | none, y => y
  | some s, y => if s.isEmpty then y else s

/-- Python `x or y` on two strings. -/
def pyOrS (x y : PyStr) : PyStr := if x.isEmpty then y else x

/-- One cleaned output record of `extract_records`. -/
structure CleanRecord where
  id : Int
  index : PyStr
  category : PyStr
  name : PyStr
  phones : List PyStr
  locations : List PyStr
  offers : List PyStr

/-- The cleaning step of the final `for number, record in enumerate(records,
start=1)` loop: positional `id`, `index or str(number)` fallback, category
fallback, name fallback chain, first-occurrence dedup, truthy offer filter. -/
def cleanRecord (number : Nat) (r : RawRecord) : CleanRecord :=
  { id := Int.ofNat number,
    index := pyOrStr r.index (natDigits number),
    category := pyOrS r.category (pystr r"未分類"),
    name := pyOrS r.name (pyOrS r.category (pystr r"商店 " ++ natDigits number)),
    phones := dedupFirst r.phones,
    locations := dedupFirst r.locations,
    offers := r.offers.filter (fun o => !o.isEmpty) }

/-- `enumerate(records, start=n)` applied to `cleanRecord`. -/
def renumberFrom (n : Nat) : List RawRecord → List CleanRecord
  | [] => []
  | r :: rest => cleanRecord n r :: renumberFrom (n + 1) rest

/-- `extract_records` of generate_site.py, composed from the row scan and the
renumbering loop (`enumerate` starts at 1). -/
def extract_records (rows : List Row) : List CleanRecord :=
  renumberFrom 1 (recordsOf rows)

theorem renumberFrom_getElem? : ∀ (l : List RawRecord) (n k : Nat),
    (renumberFrom n l)[k]? = (l[k]?).map (cleanRecord (n + k)) := by
  intro l
  induction l with
  | nil => intro n k; simp [renumberFrom]
  | cons r rest ih =>
    intro n k
    cases k with
    | zero => simp [renumberFrom]
    | succ k =>
      simp only [renumberFrom, List.getElem?_cons_succ]
      rw [ih (n + 1) k]
      have harith : n + 1 + k = n + (k + 1) := by omega
      rw [harith]

/-- C9: the renumbering loop of `extract_records` assigns the k-th output
record (0-based k) the id k+1, its 1-based position, for every input row
list and independently of any index text parsed from the page; and the
output index field is the accumulated index text if that is present and
nonempty, else the decimal string of k+1 — so id and index need not agree
with the document's printed numbering. -/
theorem c9_renumbered_ids (rows : List Row) (k : Nat) (rec : CleanRecord)
    (h : (extract_records rows)[k]? = some rec) :
    rec.id = Int.ofNat k + 1 ∧
    ∃ raw, (recordsOf rows)[k]? = some raw ∧
      rec.index = pyOrStr raw.index (natDigits (k + 1)) := by
  rw [extract_records, renumberFrom_getElem? (recordsOf rows) 1 k] at h
  have harith : 1 + k = k + 1 := by omega
  rw [harith] at h
  cases hr : (recordsOf rows)[k]? with
  | none => rw [hr] at h; simp at h
  | some raw =>
    rw [hr] at h
    simp only [Option.map_some'] at h
    have hrec := Option.some.inj h
    refine ⟨?_, raw, rfl, ?_⟩
    · rw [← hrec]
      rfl
    · rw [← hrec]
      rfl

/-- A single content row: category fragment at x=50, shop name at x=100. -/
def c9Rows : List Row := [⟨100, [(50, pystr r"生活"), (100, pystr r"麵店")]⟩]

/-- The single record extracted from `c9Rows`: no index text appears on the
page, so the index falls back to the string form of the position. -/
def c9Rec : CleanRecord :=
  ⟨1, pystr r"1", pystr r"生活", pystr r"麵店", [], [], []⟩

/-- Witness for C9 on a concrete one-row page with no printed index. -/
theorem c9_renumbered_ids_witness :
    (extract_records c9Rows)[0]? = some c9Rec ∧
    (c9Rec.id = Int.ofNat 0 + 1 ∧ ∃ raw, (recordsOf c9Rows)[0]? = some raw ∧
      c9Rec.index = pyOrStr raw.index (natDigits (0 + 1))) :=
  ⟨rfl, c9_renumbered_ids c9Rows 0 c9Rec rfl⟩

end TMPS
